import Mathlib

/-!
Verification development for the remote store mirroring engine
(`src/main.rs` of the nix-remote repository).

Byte buffers, paths and file contents are modelled as `List Char`
(the program only supports UTF-8 paths, rejecting everything else, and
the rewriting engine treats content as a flat byte sequence; we model
the byte sequence at character granularity).  Machine integers (POSIX
mode bits) are modelled as `Nat` with explicit masking.  Fallible
operations return `Option` / explicit error sums.
-/

namespace NixRemote

/-- Source constant `NIX_STORE = "/nix/store/"` (main.rs line 33). -/
def NIX_STORE : List Char := "/nix/store/".data

/-- Source constant `DEFAULT_REMAP = "/tmp/nixrm/"` (main.rs line 34). -/
def DEFAULT_REMAP : List Char := "/tmp/nixrm/".data

theorem NIX_STORE_eq :
    NIX_STORE = ['/', 'n', 'i', 'x', '/', 's', 't', 'o', 'r', 'e', '/'] := rfl

theorem DEFAULT_REMAP_eq :
    DEFAULT_REMAP = ['/', 't', 'm', 'p', '/', 'n', 'i', 'x', 'r', 'm', '/'] := rfl

/-- Strip a literal leading segment from a character list; models
`Path::strip_prefix` as used in `remap_path` (main.rs line 163), which
returns an error when the path does not start with the store root. -/
def stripLit : List Char → List Char → Option (List Char)
  | [], ys => some ys
  | _ :: _, [] => none
  | x :: xs, y :: ys => if x = y then stripLit xs ys else none

/-- Model of the closure `remap_path` (main.rs lines 161-167): strip the
`/nix/store/` root and re-root the remainder under `/tmp/nixrm/`. -/
def remap_path (src : List Char) : Option (List Char) :=
  (stripLit NIX_STORE src).map (fun rest => DEFAULT_REMAP ++ rest)

theorem stripLit_eq_some {pre l r : List Char} :
    stripLit pre l = some r ↔ l = pre ++ r := by
  induction pre generalizing l with
  | nil => simp [stripLit]
  | cons x xs ih =>
    cases l with
    | nil => simp [stripLit]
    | cons y ys =>
      by_cases hxy : x = y
      · subst hxy
        simp [stripLit, ih]
      · simp [stripLit, hxy, Ne.symm hxy]

theorem stripLit_append (pre r : List Char) :
    stripLit pre (pre ++ r) = some r := stripLit_eq_some.mpr rfl

theorem remap_path_eq_some {src out : List Char} :
    remap_path src = some out ↔
      ∃ rel, src = NIX_STORE ++ rel ∧ out = DEFAULT_REMAP ++ rel := by
  unfold remap_path
  constructor
  · intro h
    rcases Option.map_eq_some'.mp h with ⟨rel, hstrip, hout⟩
    exact ⟨rel, stripLit_eq_some.mp hstrip, hout.symm⟩
  · rintro ⟨rel, rfl, rfl⟩
    rw [stripLit_append]
    rfl

theorem remap_path_store (rel : List Char) :
    remap_path (NIX_STORE ++ rel) = some (DEFAULT_REMAP ++ rel) :=
  remap_path_eq_some.mpr ⟨rel, rfl, rfl⟩

theorem remap_path_eq_none {src : List Char} :
    remap_path src = none ↔ ∀ rel, src ≠ NIX_STORE ++ rel := by
  constructor
  · intro h rel hsrc
    rw [hsrc, remap_path_store rel] at h
    cases h
  · intro h
    cases hr : remap_path src with
    | none => rfl
    | some out =>
      rcases remap_path_eq_some.mp hr with ⟨rel, hsrc, _⟩
      exact absurd hsrc (h rel)

/-- Leftmost-first matching of the alternation regex built in
`paths_regex` (main.rs lines 88-93): the match with the smallest start
position wins, and among alternatives matching at that position the one
listed first wins (the semantics of the regex crate for an alternation
of literals).  Returns the start position and the matched literal. -/
def findMatch (paths : List (List Char)) : List Char → Option (Nat × List Char)
  | [] =>
    match paths.find? (fun p => decide (p <+: ([] : List Char))) with
    | some p => some (0, p)
    | none => none
  | b :: rest =>
    match paths.find? (fun p => decide (p <+: b :: rest)) with
    | some p => some (0, p)
    | none =>
      match findMatch paths rest with
      | some (i, p) => some (i + 1, p)
      | none => none

/-- One iteration budget per consumed byte: the scan loop of
main.rs lines 228-243, written with explicit fuel.  Running out of fuel
models non-termination of the loop (possible only when the matcher can
return an empty match, which cannot happen for a closure's store
paths); a failed `remap_path` on matched bytes models the `?` abort on
line 234. -/
def rewriteGo (paths : List (List Char)) : Nat → List Char → Option (List Char)
  | 0, buf => if buf.isEmpty then some [] else none
  | fuel + 1, buf =>
    if buf.isEmpty then some []
    else
      match findMatch paths buf with
      | none => some buf
      | some (i, p) =>
        match remap_path p, rewriteGo paths fuel (buf.drop (i + p.length)) with
        | some r, some tail => some (buf.take i ++ r ++ tail)
        | _, _ => none

/-- The streaming rewrite pass over one file's content
(main.rs lines 228-243). -/
def rewrite (paths : List (List Char)) (buf : List Char) : Option (List Char) :=
  rewriteGo paths (buf.length + 1) buf

/-- Big-endian octal digit list of `n` (empty for 0), with fuel;
the fuel `n` is always sufficient since `n / 8 < n` for `n > 0`. -/
def octDigitsGo : Nat → Nat → List Nat
  | 0, _ => []
  | fuel + 1, n => if n = 0 then [] else octDigitsGo fuel (n / 8) ++ [n % 8]

/-- Octal rendering of `n` as produced by the `{:o}` format specifier. -/
def octChars (n : Nat) : List Char :=
  if n = 0 then ['0'] else (octDigitsGo n n).map (fun d => Char.ofNat (48 + d))

/-- The argument string `format!("{:0>3o}", mode & 0o777)` passed to the
remote `chmod` command (main.rs lines 247 and 290): octal digits of the
low nine permission bits, left-padded with `'0'` to width three. -/
def chmodArg (mode : Nat) : List Char :=
  let s := octChars (Nat.land mode 511)
  List.replicate (3 - s.length) '0' ++ s

/-- How the remote `chmod` utility interprets a numeric mode argument:
as an octal numeral. -/
def parseOct (s : List Char) : Nat :=
  s.foldl (fun acc c => acc * 8 + (c.toNat - 48)) 0

/-! Semantics of the leftmost-first matcher. -/

theorem findMatch_none_spec {paths : List (List Char)} {buf : List Char}
    (h : findMatch paths buf = none) :
    ∀ q ∈ paths, ∀ j, ¬ q <+: buf.drop j := by
  induction buf with
  | nil =>
    intro q hq j hpre
    rw [findMatch] at h
    cases hfind : paths.find? (fun p => decide (p <+: ([] : List Char))) with
    | some p => rw [hfind] at h; cases h
    | none =>
      have := List.find?_eq_none.mp hfind q hq
      rw [List.drop_nil] at hpre
      exact this (decide_eq_true hpre)
  | cons b rest ih =>
    intro q hq j hpre
    rw [findMatch] at h
    cases hfind : paths.find? (fun p => decide (p <+: b :: rest)) with
    | some p => rw [hfind] at h; cases h
    | none =>
      rw [hfind] at h
      cases j with
      | zero =>
        have := List.find?_eq_none.mp hfind q hq
        exact this (decide_eq_true hpre)
      | succ j' =>
        cases hrec : findMatch paths rest with
        | some ip => rw [hrec] at h; cases h
        | none => exact ih hrec q hq j' hpre

theorem findMatch_none_of_no_occ {paths : List (List Char)} {buf : List Char}
    (h : ∀ q ∈ paths, ∀ j, ¬ q <+: buf.drop j) :
    findMatch paths buf = none := by
  induction buf with
  | nil =>
    rw [findMatch]
    cases hfind : paths.find? (fun p => decide (p <+: ([] : List Char))) with
    | some p =>
      have hmem := List.mem_of_find?_eq_some hfind
      have hp := List.find?_some hfind
      simp only [decide_eq_true_eq] at hp
      exact absurd hp (by simpa using h p hmem 0)
    | none => rfl
  | cons b rest ih =>
    rw [findMatch]
    cases hfind : paths.find? (fun p => decide (p <+: b :: rest)) with
    | some p =>
      have hmem := List.mem_of_find?_eq_some hfind
      have hp := List.find?_some hfind
      simp only [decide_eq_true_eq] at hp
      exact absurd hp (by simpa using h p hmem 0)
    | none =>
      have : findMatch paths rest = none := by
        apply ih
        intro q hq j
        exact h q hq (j + 1)
      rw [this]

theorem findMatch_some_spec {paths : List (List Char)} {buf : List Char}
    {i : Nat} {p : List Char} (h : findMatch paths buf = some (i, p)) :
    p ∈ paths ∧ p <+: buf.drop i ∧ ∀ j < i, ∀ q ∈ paths, ¬ q <+: buf.drop j := by
  induction buf generalizing i with
  | nil =>
    rw [findMatch] at h
    cases hfind : paths.find? (fun p => decide (p <+: ([] : List Char))) with
    | some p' =>
      rw [hfind] at h
      cases h
      refine ⟨List.mem_of_find?_eq_some hfind, ?_, ?_⟩
      · have hp := List.find?_some hfind
        simp only [decide_eq_true_eq] at hp
        simpa using hp
      · intro j hj; omega
    | none => rw [hfind] at h; cases h
  | cons b rest ih =>
    rw [findMatch] at h
    cases hfind : paths.find? (fun p => decide (p <+: b :: rest)) with
    | some p' =>
      rw [hfind] at h
      cases h
      refine ⟨List.mem_of_find?_eq_some hfind, ?_, ?_⟩
      · have hp := List.find?_some hfind
        simp only [decide_eq_true_eq] at hp
        simpa using hp
      · intro j hj; omega
    | none =>
      rw [hfind] at h
      cases hrec : findMatch paths rest with
      | some ip =>
        obtain ⟨i', p'⟩ := ip
        rw [hrec] at h
        cases h
        obtain ⟨hmem, hpre, hmin⟩ := ih hrec
        refine ⟨hmem, hpre, ?_⟩
        intro j hj q hq
        cases j with
        | zero =>
          intro hcon
          exact List.find?_eq_none.mp hfind q hq (decide_eq_true hcon)
        | succ j' => exact hmin j' (by omega) q hq
      | none => rw [hrec] at h; cases h

/-! Infix decomposition helpers. -/

theorem infix_iff_exists_drop {q l : List Char} :
    q <:+: l ↔ ∃ j, q <+: l.drop j := by
  constructor
  · rintro ⟨s, t, rfl⟩
    refine ⟨s.length, t, ?_⟩
    rw [List.append_assoc, List.drop_left]
  · rintro ⟨j, t, ht⟩
    exact ⟨l.take j, t, by rw [List.append_assoc, ht, List.take_append_drop]⟩

theorem infix_append_cases {q a b : List Char} (h : q <:+: a ++ b) :
    q <:+: a ∨ q <:+: b ∨
      ∃ q1 q2, q = q1 ++ q2 ∧ q1 ≠ [] ∧ q2 ≠ [] ∧ q1 <:+ a ∧ q2 <+: b := by
  obtain ⟨s, t, hst⟩ := h
  by_cases h1 : s.length + q.length ≤ a.length
  · left
    have ha : a = (s ++ q ++ t).take a.length := by rw [hst, List.take_left]
    rw [List.append_assoc, List.take_append_eq_append_take,
      List.take_of_length_le (show s.length ≤ a.length by omega),
      List.take_append_eq_append_take,
      List.take_of_length_le (show q.length ≤ a.length - s.length by omega)] at ha
    exact ⟨s, t.take (a.length - s.length - q.length), by
      rw [List.append_assoc]; exact ha.symm⟩
  · by_cases h2 : a.length ≤ s.length
    · right; left
      have hb : b = (s ++ q ++ t).drop a.length := by rw [hst, List.drop_left]
      rw [List.append_assoc, List.drop_append_eq_append_drop,
        Nat.sub_eq_zero_of_le h2, List.drop_zero] at hb
      exact ⟨s.drop a.length, t, by rw [← List.append_assoc] at hb; exact hb.symm⟩
    · right; right
      refine ⟨q.take (a.length - s.length), q.drop (a.length - s.length),
        (List.take_append_drop _ _).symm, ?_, ?_, ?_, ?_⟩
      · have : (q.take (a.length - s.length)).length = a.length - s.length := by
          rw [List.length_take]; omega
        intro hnil
        rw [hnil] at this
        simp at this
        omega
      · have : (q.drop (a.length - s.length)).length = q.length - (a.length - s.length) := by
          rw [List.length_drop]
        intro hnil
        rw [hnil] at this
        simp at this
        omega
      · refine ⟨s, ?_⟩
        have ha : a = (s ++ q ++ t).take a.length := by rw [hst, List.take_left]
        rw [List.take_append_eq_append_take,
          show a.length - (s ++ q).length = 0 by rw [List.length_append]; omega,
          List.take_zero, List.append_nil, List.take_append_eq_append_take,
          List.take_of_length_le (show s.length ≤ a.length by omega)] at ha
        exact ha.symm
      · have hb : b = (s ++ q ++ t).drop a.length := by rw [hst, List.drop_left]
        rw [List.drop_append_eq_append_drop,
          show a.length - (s ++ q).length = 0 by rw [List.length_append]; omega,
          List.drop_zero, List.drop_append_eq_append_drop,
          List.drop_eq_nil_of_le (show s.length ≤ a.length by omega),
          List.nil_append] at hb
        exact ⟨t, hb.symm⟩

/-! Shape of closure store paths.  A closure member is the store root
followed by a relative component `hash-name`; the component is nonempty,
contains no path separator, and (being hash-prefixed) has at least four
characters.  The spec additionally asserts that closure members are
prefix-disjoint. -/

/-- A valid relative component of a store path. -/
def goodRel (rel : List Char) : Prop :=
  rel ≠ [] ∧ '/' ∉ rel ∧ 4 ≤ rel.length

/-- A valid closure store path: store root plus a valid component. -/
def goodPath (p : List Char) : Prop :=
  ∃ rel, p = NIX_STORE ++ rel ∧ goodRel rel

theorem prefix_of_take {q l : List Char} {n : Nat} (h : q <+: l.take n) :
    q <+: l :=
  h.trans ⟨l.drop n, List.take_append_drop n l⟩

theorem take_eq_of_isP {u v : List Char} (h : u <+: v) {k : Nat}
    (hk : k ≤ u.length) : v.take k = u.take k := by
  obtain ⟨t, rfl⟩ := h
  rw [List.take_append_eq_append_take, show k - u.length = 0 by omega,
    List.take_zero, List.append_nil]

theorem NS_slash {n : Nat} (hn : n < NIX_STORE.length)
    (h : NIX_STORE[n] = '/') : n = 0 ∨ n = 4 ∨ n = 10 := by
  have h' : NIX_STORE.getD n ' ' = '/' := by
    rw [List.getD_eq_getElem _ _ hn]; exact h
  have hn11 : n < 11 := hn
  clear h hn
  interval_cases n <;> revert h' <;> decide

theorem DR_slash {n : Nat} (hn : n < DEFAULT_REMAP.length)
    (h : DEFAULT_REMAP[n] = '/') : n = 0 ∨ n = 4 ∨ n = 10 := by
  have h' : DEFAULT_REMAP.getD n ' ' = '/' := by
    rw [List.getD_eq_getElem _ _ hn]; exact h
  have hn11 : n < 11 := hn
  clear h hn
  interval_cases n <;> revert h' <;> decide

theorem slash_append {pre rel : List Char}
    (hpre : ∀ n, (hn : n < pre.length) → pre[n] = '/' → n = 0 ∨ n = 4 ∨ n = 10)
    (hrel : '/' ∉ rel) {n : Nat} (hn : n < (pre ++ rel).length)
    (h : (pre ++ rel)[n] = '/') : n = 0 ∨ n = 4 ∨ n = 10 := by
  rcases Nat.lt_or_ge n pre.length with hlt | hge
  · rw [List.getElem_append_left hlt] at h
    exact hpre n hlt h
  · exfalso
    rw [List.getElem_append_right hge] at h
    exact hrel (h ▸ List.getElem_mem _)

/-- A closure store path cannot match anywhere at or after the start of
a replacement string `DEFAULT_REMAP ++ relp`, whatever follows it. -/
theorem no_path_from_repl {rq relp W : List Char}
    (hrq : goodRel rq) (hrelp : goodRel relp)
    {m : Nat} (hm : m < (DEFAULT_REMAP ++ relp).length) :
    ¬ (NIX_STORE ++ rq) <+: ((DEFAULT_REMAP ++ relp).drop m ++ W) := by
  obtain ⟨-, hrqs, hrq4⟩ := hrq
  obtain ⟨-, hrelps, hrelp4⟩ := hrelp
  intro hpre
  have hqlen : (NIX_STORE ++ rq).length = 11 + rq.length := by
    rw [List.length_append]; rfl
  have hRlen : (DEFAULT_REMAP ++ relp).length = 11 + relp.length := by
    rw [List.length_append]; rfl
  have h0q : (0 : Nat) < (NIX_STORE ++ rq).length := by omega
  have e1 := hpre.getElem h0q
  have e0 : (NIX_STORE ++ rq)[0] = '/' := by
    rw [List.getElem_append_left (show (0:Nat) < NIX_STORE.length by decide)]
    decide
  have hd0 : (0 : Nat) < ((DEFAULT_REMAP ++ relp).drop m).length := by
    rw [List.length_drop]; omega
  rw [List.getElem_append_left hd0, List.getElem_drop, e0] at e1
  have hm04 : m = 0 ∨ m = 4 ∨ m = 10 := by
    have hs := slash_append (fun _ hn h => DR_slash hn h) hrelps
      (show m + 0 < (DEFAULT_REMAP ++ relp).length by omega) e1.symm
    omega
  rcases hm04 with rfl | rfl | rfl
  · rw [List.drop_zero] at hpre
    have ht := take_eq_of_isP hpre (k := 11) (by omega)
    rw [List.append_assoc, List.take_left' (by decide : DEFAULT_REMAP.length = 11),
      List.take_left' (by decide : NIX_STORE.length = 11)] at ht
    exact absurd ht (by decide)
  · rw [List.drop_append_eq_append_drop,
      show (4:Nat) - DEFAULT_REMAP.length = 0 by decide, List.drop_zero,
      List.append_assoc] at hpre
    have ht := take_eq_of_isP hpre (k := 7) (by omega)
    rw [List.take_left' (by decide : (DEFAULT_REMAP.drop 4).length = 7),
      List.take_append_eq_append_take,
      show (7:Nat) - NIX_STORE.length = 0 by decide, List.take_zero,
      List.append_nil] at ht
    exact absurd ht (by decide)
  · rw [List.drop_append_eq_append_drop,
      show (10:Nat) - DEFAULT_REMAP.length = 0 by decide, List.drop_zero,
      List.append_assoc] at hpre
    have ht := take_eq_of_isP hpre (k := 5) (by omega)
    rw [List.take_append_eq_append_take,
      List.take_of_length_le (by decide : (DEFAULT_REMAP.drop 10).length ≤ 5),
      show (5:Nat) - (DEFAULT_REMAP.drop 10).length = 4 by decide,
      List.take_append_eq_append_take,
      show (4:Nat) - relp.length = 0 by omega, List.take_zero, List.append_nil,
      List.take_append_eq_append_take,
      show (5:Nat) - NIX_STORE.length = 0 by decide, List.take_zero,
      List.append_nil] at ht
    have h4 : relp.take 4 = ['n', 'i', 'x', '/'] := by
      have hdr : DEFAULT_REMAP.drop 10 = ['/'] := by decide
      have hns : NIX_STORE.take 5 = ['/', 'n', 'i', 'x', '/'] := by decide
      rw [hdr, hns] at ht
      simpa using ht
    exact hrelps (List.mem_of_mem_take (by rw [h4]; decide))

/-- A strict tail of a closure store path cannot be a prefix of a
replacement string `DEFAULT_REMAP ++ relp` followed by anything. -/
theorem no_tail_into_repl {rq relp W : List Char}
    (hrq : goodRel rq) (hrelp : goodRel relp)
    {n : Nat} (h1 : 1 ≤ n) (h2 : n < (NIX_STORE ++ rq).length) :
    ¬ (NIX_STORE ++ rq).drop n <+: (DEFAULT_REMAP ++ relp) ++ W := by
  obtain ⟨-, hrqs, hrq4⟩ := hrq
  obtain ⟨-, hrelps, hrelp4⟩ := hrelp
  intro hpre
  have hqlen : (NIX_STORE ++ rq).length = 11 + rq.length := by
    rw [List.length_append]; rfl
  have hRlen : (DEFAULT_REMAP ++ relp).length = 11 + relp.length := by
    rw [List.length_append]; rfl
  have hd0 : (0 : Nat) < ((NIX_STORE ++ rq).drop n).length := by
    rw [List.length_drop]; omega
  have e1 := hpre.getElem hd0
  rw [List.getElem_drop] at e1
  rw [List.getElem_append_left
    (show (0:Nat) < (DEFAULT_REMAP ++ relp).length by omega)] at e1
  rw [List.getElem_append_left (show (0:Nat) < DEFAULT_REMAP.length by decide)] at e1
  have hdr0 : (0 : Nat) < DEFAULT_REMAP.length := by decide
  have e2 : DEFAULT_REMAP[0] = '/' := by
    rw [← List.getD_eq_getElem DEFAULT_REMAP ' ' hdr0]; decide
  rw [e2] at e1
  have hn04 : n = 4 ∨ n = 10 := by
    have hs := slash_append (fun _ hn h => NS_slash hn h) hrqs
      (show n + 0 < (NIX_STORE ++ rq).length by omega) e1
    omega
  rcases hn04 with rfl | rfl
  · rw [List.drop_append_eq_append_drop,
      show (4:Nat) - NIX_STORE.length = 0 by decide, List.drop_zero] at hpre
    have ht := take_eq_of_isP hpre (k := 2)
      (by rw [List.length_append]
          have h7 : (NIX_STORE.drop 4).length = 7 := rfl
          omega)
    rw [List.append_assoc, List.take_append_eq_append_take,
      show (2:Nat) - DEFAULT_REMAP.length = 0 by decide, List.take_zero,
      List.append_nil, List.take_append_eq_append_take,
      show (2:Nat) - (NIX_STORE.drop 4).length = 0 by decide, List.take_zero,
      List.append_nil] at ht
    exact absurd ht (by decide)
  · rw [List.drop_append_eq_append_drop,
      show (10:Nat) - NIX_STORE.length = 0 by decide, List.drop_zero] at hpre
    have ht := take_eq_of_isP hpre (k := 5)
      (by rw [List.length_append]
          have h1' : (NIX_STORE.drop 10).length = 1 := rfl
          omega)
    rw [List.append_assoc, List.take_append_eq_append_take,
      show (5:Nat) - DEFAULT_REMAP.length = 0 by decide, List.take_zero,
      List.append_nil, List.take_append_eq_append_take,
      List.take_of_length_le (by decide : (NIX_STORE.drop 10).length ≤ 5),
      show (5:Nat) - (NIX_STORE.drop 10).length = 4 by decide] at ht
    have h4 : rq.take 4 = ['t', 'm', 'p', '/'] := by
      have hns : NIX_STORE.drop 10 = ['/'] := by decide
      have hdr : DEFAULT_REMAP.take 5 = ['/', 't', 'm', 'p', '/'] := by decide
      rw [hns, hdr] at ht
      simpa using ht.symm
    exact hrqs (List.mem_of_mem_take (by rw [h4]; decide))

/-- Sewing lemma: if a closure store path occurs neither in `T` nor in
`S`, it does not occur in `T ++ replacement ++ S` where the replacement
is the remapping of a closure store path. -/
theorem no_new_occ {rq relp T S : List Char}
    (hrq : goodRel rq) (hrelp : goodRel relp)
    (hT : ¬ (NIX_STORE ++ rq) <:+: T) (hS : ¬ (NIX_STORE ++ rq) <:+: S) :
    ¬ (NIX_STORE ++ rq) <:+: T ++ ((DEFAULT_REMAP ++ relp) ++ S) := by
  intro h
  have hqne : (NIX_STORE ++ rq) ≠ [] := by
    intro he
    have := (List.append_eq_nil.mp he).1
    rw [NIX_STORE_eq] at this
    cases this
  rcases infix_append_cases h with hcase | hcase | ⟨q1, q2, hq, hq1ne, hq2ne, hq1, hq2⟩
  · exact hT hcase
  · rcases infix_append_cases hcase with hc2 | hc2 | ⟨q1, q2, hq, hq1ne, hq2ne, hq1, hq2⟩
    · rcases infix_iff_exists_drop.mp hc2 with ⟨j, hj⟩
      rcases Nat.lt_or_ge j (DEFAULT_REMAP ++ relp).length with hlt | hge
      · have hno := no_path_from_repl hrq hrelp hlt (W := [])
        rw [List.append_nil] at hno
        exact hno hj
      · rw [List.drop_eq_nil_of_le hge] at hj
        exact hqne (List.prefix_nil.mp hj)
    · exact hS hc2
    · obtain ⟨s, hs⟩ := hq1
      have hq1pos : 0 < q1.length := List.length_pos.mpr hq1ne
      have hslen : s.length < (DEFAULT_REMAP ++ relp).length := by
        have hl := congrArg List.length hs
        rw [List.length_append] at hl
        omega
      have hdropq1 : (DEFAULT_REMAP ++ relp).drop s.length = q1 := by
        rw [← hs, List.drop_left]
      have hqpre : (NIX_STORE ++ rq) <+:
          ((DEFAULT_REMAP ++ relp).drop s.length ++ S) := by
        rw [hdropq1, hq]
        exact (List.prefix_append_right_inj q1).mpr hq2
      exact no_path_from_repl hrq hrelp hslen hqpre
  · have hn1 : 1 ≤ q1.length := List.length_pos.mpr hq1ne
    have hn2 : q1.length < (NIX_STORE ++ rq).length := by
      have hl := congrArg List.length hq
      rw [List.length_append, List.length_append] at hl
      rw [List.length_append]
      have := List.length_pos.mpr hq2ne
      omega
    have hdrop : (NIX_STORE ++ rq).drop q1.length = q2 := by
      rw [hq, List.drop_left]
    have hno := no_tail_into_repl ⟨hrq.1, hrq.2.1, hrq.2.2⟩ hrelp hn1 hn2 (W := S)
    rw [hdrop] at hno
    exact hno hq2

theorem goodPath_ne_nil {q : List Char} (h : goodPath q) : q ≠ [] := by
  obtain ⟨rel, rfl, -⟩ := h
  intro he
  have := (List.append_eq_nil.mp he).1
  rw [NIX_STORE_eq] at this
  cases this

/-- Greedy leftmost decomposition of a buffer with respect to the
matcher alternatives: the buffer splits into kept chunks and matched
occurrences such that no occurrence of any alternative starts strictly
inside a kept chunk (leftmost choice), each matched occurrence is the
unique alternative matching at its position (so it is the maximal one),
and the final chunk contains no occurrence at all. -/
inductive Greedy (paths : List (List Char)) :
    List Char → List (List Char × List Char) → List Char → Prop
  | last : ∀ buf, (∀ q ∈ paths, ¬ q <:+: buf) → Greedy paths buf [] buf
  | step : ∀ c p rest pieces lst,
      (∀ j, j < c.length → ∀ q ∈ paths, ¬ q <+: (c ++ (p ++ rest)).drop j) →
      p ∈ paths →
      (∀ q ∈ paths, q <+: p ++ rest → q = p) →
      Greedy paths rest pieces lst →
      Greedy paths (c ++ (p ++ rest)) ((c, p) :: pieces) lst

/-- Master invariant of the scan loop: with enough fuel the loop
terminates, the output decomposes into kept chunks and remapped
occurrences following the greedy leftmost decomposition of the input,
kept chunks (and the final chunk) contain no occurrence of any closure
path, and the output as a whole contains no occurrence of any closure
path. -/
theorem rewriteGo_spec {paths : List (List Char)}
    (hgood : ∀ p ∈ paths, goodPath p)
    (hpf : ∀ p ∈ paths, ∀ q ∈ paths, p <+: q → p = q) :
    ∀ fuel buf, buf.length < fuel →
      ∃ out, rewriteGo paths fuel buf = some out ∧
        (∀ q ∈ paths, ¬ q <:+: out) ∧
        ∃ pieces : List (List Char × List Char), ∃ last : List Char,
          buf = (pieces.map (fun cp => cp.1 ++ cp.2)).flatten ++ last ∧
          out = (pieces.map
            (fun cp => cp.1 ++ (remap_path cp.2).getD [])).flatten ++ last ∧
          Greedy paths buf pieces last ∧
          (∀ cp ∈ pieces, cp.2 ∈ paths ∧ (remap_path cp.2).isSome ∧
            ∀ q ∈ paths, ¬ q <:+: cp.1) ∧
          (∀ q ∈ paths, ¬ q <:+: last) := by
  intro fuel
  induction fuel with
  | zero => intro buf h; omega
  | succ f ih =>
    intro buf hlen
    cases hbe : buf.isEmpty with
    | true =>
      have hbnil : buf = [] := List.isEmpty_iff.mp hbe
      subst hbnil
      have hnocc : ∀ q ∈ paths, ¬ q <:+: ([] : List Char) := by
        intro q hq hinf
        exact goodPath_ne_nil (hgood q hq) (by simpa using hinf)
      exact ⟨[], by rw [rewriteGo]; simp, hnocc, [], [], by simp, by simp,
        Greedy.last [] hnocc, by simp, hnocc⟩
    | false =>
      have hbne : buf ≠ [] := by
        intro hbnil; rw [hbnil] at hbe; cases hbe
      cases hm : findMatch paths buf with
      | none =>
        have hnocc : ∀ q ∈ paths, ¬ q <:+: buf := by
          intro q hq hinf
          rcases infix_iff_exists_drop.mp hinf with ⟨j, hj⟩
          exact findMatch_none_spec hm q hq j hj
        exact ⟨buf, by rw [rewriteGo]; simp [hbe, hm], hnocc, [], buf,
          by simp, by simp, Greedy.last buf hnocc, by simp, hnocc⟩
      | some ip =>
        obtain ⟨i, p⟩ := ip
        obtain ⟨hpmem, hppre, hmin⟩ := findMatch_some_spec hm
        obtain ⟨relp, hpeq, hrelp⟩ := hgood p hpmem
        subst hpeq
        have hplen : (NIX_STORE ++ relp).length = 11 + relp.length := by
          rw [List.length_append]; rfl
        have hple := hppre.length_le
        rw [List.length_drop] at hple
        have hbpos : 0 < buf.length := List.length_pos.mpr hbne
        have hip : i + (NIX_STORE ++ relp).length ≤ buf.length := by omega
        have hnext : (buf.drop (i + (NIX_STORE ++ relp).length)).length < f := by
          rw [List.length_drop]; omega
        obtain ⟨tail, htail, htno, pieces', last', hP1, hP2, hG, hP3, hP4⟩ :=
          ih (buf.drop (i + (NIX_STORE ++ relp).length)) hnext
        have hchunk : ∀ q ∈ paths, ¬ q <:+: buf.take i := by
          intro q hq hinf
          rcases infix_iff_exists_drop.mp hinf with ⟨j, hj⟩
          rcases Nat.lt_or_ge j i with hji | hji
          · rw [List.drop_take] at hj
            exact hmin j hji q hq (prefix_of_take hj)
          · rw [List.drop_eq_nil_of_le (by rw [List.length_take]; omega)] at hj
            exact goodPath_ne_nil (hgood q hq) (List.prefix_nil.mp hj)
        have hpr : (NIX_STORE ++ relp) ++
            buf.drop (i + (NIX_STORE ++ relp).length) = buf.drop i := by
          obtain ⟨t', ht'⟩ := hppre
          have hdd : buf.drop (i + (NIX_STORE ++ relp).length) = t' := by
            rw [← List.drop_drop, ← ht', List.drop_left]
          rw [hdd, ht']
        have hsplit : buf = buf.take i ++
            ((NIX_STORE ++ relp) ++ buf.drop (i + (NIX_STORE ++ relp).length)) := by
          rw [hpr, List.take_append_drop]
        refine ⟨buf.take i ++ (DEFAULT_REMAP ++ relp) ++ tail, ?_, ?_,
          (buf.take i, NIX_STORE ++ relp) :: pieces', last', ?_, ?_, ?_, ?_, hP4⟩
        · rw [rewriteGo]
          simp only [hbe, Bool.false_eq_true, if_false, hm, remap_path_store, htail]
        · intro q hq hinf
          obtain ⟨rq, hqeq, hrq⟩ := hgood q hq
          subst hqeq
          rw [List.append_assoc] at hinf
          exact no_new_occ hrq hrelp (hchunk _ hq) (htno _ hq) hinf
        · simp only [List.map_cons, List.flatten_cons, List.append_assoc]
          rw [← hP1]
          rw [List.append_assoc] at hsplit
          exact hsplit
        · simp only [List.map_cons, List.flatten_cons, remap_path_store,
            Option.getD_some, List.append_assoc, hP2]
        · have hgre : Greedy paths (buf.take i ++
              ((NIX_STORE ++ relp) ++ buf.drop (i + (NIX_STORE ++ relp).length)))
              ((buf.take i, NIX_STORE ++ relp) :: pieces') last' := by
            refine Greedy.step _ _ _ _ _ ?_ hpmem ?_ hG
            · intro j hj q hq
              rw [← hsplit]
              refine hmin j ?_ q hq
              rw [List.length_take] at hj
              omega
            · intro q hq hqpre
              rw [hpr] at hqpre
              rcases List.prefix_or_prefix_of_prefix hqpre hppre with hcmp | hcmp
              · exact hpf q hq _ hpmem hcmp
              · exact (hpf _ hpmem q hq hcmp).symm
          rw [← hsplit] at hgre
          exact hgre
        · intro cp hcp
          rcases List.mem_cons.mp hcp with rfl | hcp'
          · exact ⟨hpmem, by rw [remap_path_store]; rfl, hchunk⟩
          · exact hP3 cp hcp'

/-- C1: for every byte buffer and a fixed set of closure store paths
(store root plus nonempty slash-free hash-prefixed relative components,
prefix-disjoint as the spec asserts of store path identifiers), the
rewriting pass of main.rs lines 226-243 succeeds and its output follows
the greedy leftmost decomposition of the input: every maximal,
non-overlapping occurrence of a closure store path is replaced by
`remap_path` applied to that occurrence (`Greedy` forces each replaced
occurrence to be the unique — hence maximal — alternative matching at
its position, and forbids any match starting inside a kept chunk), all
other bytes pass through unchanged and in order, and a rescan of the
output with the same matcher finds zero occurrences of any original
store path. -/
theorem claim_C1 (paths : List (List Char)) (buf : List Char)
    (hgood : ∀ p ∈ paths, goodPath p)
    (hpf : ∀ p ∈ paths, ∀ q ∈ paths, p <+: q → p = q) :
    ∃ out, rewrite paths buf = some out ∧
      (∃ pieces : List (List Char × List Char), ∃ lastChunk : List Char,
        Greedy paths buf pieces lastChunk ∧
        buf = (pieces.map (fun cp => cp.1 ++ cp.2)).flatten ++ lastChunk ∧
        out = (pieces.map
          (fun cp => cp.1 ++ (remap_path cp.2).getD [])).flatten ++ lastChunk ∧
        (∀ cp ∈ pieces, cp.2 ∈ paths ∧ (remap_path cp.2).isSome)) ∧
      (∀ q ∈ paths, ¬ q <:+: out) ∧
      findMatch paths out = none := by
  obtain ⟨out, hw, hnocc, pieces, lst, h1, h2, hG, h3, -⟩ :=
    rewriteGo_spec hgood hpf (buf.length + 1) buf (by omega)
  refine ⟨out, hw, ⟨pieces, lst, hG, h1, h2,
    fun cp hcp => ⟨(h3 cp hcp).1, (h3 cp hcp).2.1⟩⟩, hnocc, ?_⟩
  exact findMatch_none_of_no_occ fun q hq j hpre =>
    hnocc q hq (infix_iff_exists_drop.mpr ⟨j, hpre⟩)

theorem claim_C1_witness :
    ∃ out,
      rewrite ["/nix/store/aaaa-x".data] "A/nix/store/aaaa-xB".data = some out ∧
      (∃ pieces : List (List Char × List Char), ∃ lastChunk : List Char,
        Greedy ["/nix/store/aaaa-x".data] "A/nix/store/aaaa-xB".data
          pieces lastChunk ∧
        "A/nix/store/aaaa-xB".data =
          (pieces.map (fun cp => cp.1 ++ cp.2)).flatten ++ lastChunk ∧
        out = (pieces.map
          (fun cp => cp.1 ++ (remap_path cp.2).getD [])).flatten ++ lastChunk ∧
        (∀ cp ∈ pieces, cp.2 ∈ ["/nix/store/aaaa-x".data] ∧
          (remap_path cp.2).isSome)) ∧
      (∀ q ∈ ["/nix/store/aaaa-x".data], ¬ q <:+: out) ∧
      findMatch ["/nix/store/aaaa-x".data] out = none :=
  claim_C1 ["/nix/store/aaaa-x".data] "A/nix/store/aaaa-xB".data
    (by
      intro p hp
      rw [List.mem_singleton] at hp
      subst hp
      exact ⟨"aaaa-x".data, by decide, by decide, by decide, by decide⟩)
    (by
      intro p hp q hq _
      rw [List.mem_singleton] at hp
      rw [List.mem_singleton] at hq
      rw [hp, hq])

/-! Path-set difference (PathSetDiffer).  The closure set and the
installed set are `BTreeSet<String>` values (main.rs lines 94-101 and
142-159); a `BTreeSet` over strings is modelled as a strictly
ascending list in lexicographic order, and its `difference` iterator
(main.rs line 171) as the order-preserving filter of the first list by
non-membership in the second. -/

/-- The `paths.difference(&existing)` iteration of main.rs line 171. -/
def setDifference (c i : List (List Char)) : List (List Char) :=
  c.filter (fun x => decide (x ∉ i))

/-- C2: for all closure sets C and installed sets I (C given in the
strictly ascending lexicographic order a BTreeSet iterates in), the
diff contains exactly C minus I, is itself iterated in ascending
lexicographic order, and re-running the diff against the union of I and
the result yields the empty set. -/
theorem claim_C2 (c i : List (List Char))
    (hc : List.Sorted (List.Lex (· < ·)) c) :
    (∀ x, x ∈ setDifference c i ↔ x ∈ c ∧ x ∉ i) ∧
    List.Sorted (List.Lex (· < ·)) (setDifference c i) ∧
    setDifference c (i ++ setDifference c i) = [] := by
  refine ⟨?_, ?_, ?_⟩
  · intro x
    simp [setDifference]
  · exact hc.filter _
  · rw [setDifference, List.filter_eq_nil_iff]
    intro x hx
    have hmem : x ∈ i ++ setDifference c i := by
      rcases Decidable.em (x ∈ i) with hxi | hxi
      · exact List.mem_append_left _ hxi
      · refine List.mem_append_right _ ?_
        simp [setDifference, List.mem_filter, hx, hxi]
    intro hcon
    exact of_decide_eq_true hcon hmem

theorem claim_C2_witness :
    (∀ x, x ∈ setDifference [['a'], ['b']] [['b']] ↔
      x ∈ [['a'], ['b']] ∧ x ∉ [['b']]) ∧
    List.Sorted (List.Lex (· < ·)) (setDifference [['a'], ['b']] [['b']]) ∧
    setDifference [['a'], ['b']]
      ([['b']] ++ setDifference [['a'], ['b']] [['b']]) = [] :=
  claim_C2 [['a'], ['b']] [['b']] (by decide)

/-- C7: remapping the store root plus a relative component always gives
the mirror root plus the same component, and remapping is injective
across distinct relative components. -/
theorem claim_C7 :
    (∀ r : List Char, remap_path (NIX_STORE ++ r) = some (DEFAULT_REMAP ++ r)) ∧
    (∀ r1 r2 : List Char,
      remap_path (NIX_STORE ++ r1) = remap_path (NIX_STORE ++ r2) → r1 = r2) := by
  refine ⟨remap_path_store, ?_⟩
  intro r1 r2 h
  rw [remap_path_store, remap_path_store] at h
  exact List.append_cancel_left (Option.some.inj h)

theorem claim_C7_witness :
    remap_path (NIX_STORE ++ "aaaa-x".data) =
      some (DEFAULT_REMAP ++ "aaaa-x".data) ∧
    "aaaa-x".data = 'a' :: "aaa-x".data :=
  ⟨claim_C7.1 "aaaa-x".data,
    claim_C7.2 "aaaa-x".data ('a' :: "aaa-x".data) (by decide)⟩

/-! Octal formatting round trip for the permission-bit argument. -/

theorem land_511_eq_mod (m : Nat) : Nat.land m 511 = m % 512 := by
  show m &&& 511 = m % 512
  rw [show (512 : Nat) = 2 ^ 9 by norm_num]
  apply Nat.eq_of_testBit_eq
  intro j
  rw [Nat.testBit_and, Nat.testBit_mod_two_pow]
  by_cases hj : j < 9
  · have h511 : Nat.testBit 511 j = true := by
      interval_cases j <;> decide
    simp [h511, hj]
  · have h511 : Nat.testBit 511 j = false := by
      have hlt : 511 < 2 ^ j := by
        calc 511 < 2 ^ 9 := by norm_num
        _ ≤ 2 ^ j := Nat.pow_le_pow_right (by norm_num) (by omega)
      exact Nat.testBit_lt_two_pow hlt
    simp [h511, hj]

set_option maxRecDepth 100000 in
theorem parseOct_pad_oct :
    ∀ v < 512,
      parseOct (List.replicate (3 - (octChars v).length) '0' ++ octChars v)
        = v := by
  decide

/-- The chmod argument built by `format!("{:0>3o}", mode & 0o777)`
parses back, as an octal numeral, to exactly the low nine bits of the
local mode. -/
theorem parseOct_chmodArg (m : Nat) : parseOct (chmodArg m) = m % 512 := by
  have h2 : m % 512 < 512 := Nat.mod_lt _ (by omega)
  show parseOct (List.replicate (3 - (octChars (Nat.land m 511)).length) '0'
    ++ octChars (Nat.land m 511)) = m % 512
  rw [land_511_eq_mod]
  exact parseOct_pad_oct _ h2

/-! Model of the remote side and of the per-artifact installation loop
(main.rs lines 171-307).

The remote filesystem is an association list from absolute remote paths
to objects (the first binding for a path wins).  The semantics of the
remote operations used by the program, at the level of detail knowable
from the repository:

- metadata (SFTP stat, line 178) succeeds exactly when an object exists
  at the path;
- rm -rf (line 181) removes the object and everything below it and
  reports success;
- dir_builder().create (line 205, SFTP MKDIR) fails when an object
  already exists at the path (main.rs lines 133 and 140 deliberately
  discard exactly this error for the two root directories);
- exclusive file creation via create_new(true).write(true).open
  (line 212) fails when an object already exists; a freshly created
  object carries the transport's default mode bits, a parameter of the
  model;
- chmod with an octal argument (lines 245 and 287) parses the argument
  as octal and replaces the permission bits of an existing object,
  failing when the path does not exist;
- ln -s target path (line 267) fails when an object already exists at
  the link path;
- fs.write of an empty buffer (line 305) creates or truncates a
  zero-length file. -/

/-- A remote filesystem object. -/
inductive RObj
  | dir (mode : Nat)
  | file (mode : Nat) (content : List Char)
  | symlink (target : List Char)
deriving DecidableEq

/-- The remote filesystem: path-to-object bindings, first binding wins. -/
abbrev RemoteFS : Type := List (List Char × RObj)

def lookupFS : RemoteFS → List Char → Option RObj
  | [], _ => none
  | e :: rest, p => if e.1 = p then some e.2 else lookupFS rest p

/-- Recursive forced removal, `rm -rf` (main.rs lines 180-193). -/
def rmrfFS (fs : RemoteFS) (p : List Char) : RemoteFS :=
  List.filter (fun e => !decide (e.1 = p ∨ (p ++ ['/']) <+: e.1)) fs

def modeOf : RObj → Nat
  | .dir m => m
  | .file m _ => m
  | .symlink _ => 0

def setMode : RObj → Nat → RObj
  | .dir _, m => .dir m
  | .file _ c, m => .file m c
  | .symlink t, _ => .symlink t

/-- Remote `chmod <octal-arg> <path>` (main.rs lines 245-257, 287-300). -/
def chmodFS (fs : RemoteFS) (p : List Char) (arg : List Char) :
    Option RemoteFS :=
  match lookupFS fs p with
  | none => none
  | some _ => some (List.map
      (fun e => if e.1 = p then (e.1, setMode e.2 (parseOct arg)) else e) fs)

/-- The file-type-specific data of one walked entry (main.rs lines
203-285): a directory or regular file with its local permission bits,
or a symlink with its local target. -/
inductive EKind
  | dir (mode : Nat)
  | file (mode : Nat) (content : List Char)
  | symlink (target : List Char)
deriving DecidableEq

/-- One entry of the pre-order walk of an artifact's local tree. -/
structure Entry where
  path : List Char
  kind : EKind
deriving DecidableEq

/-- Abort causes of the per-artifact loop. -/
inductive RErr
  | notInStore | rmFailed | mkdirFailed | createConflict | rewriteFailed
  | chmodFailed | symlinkFailed | remapFailed
deriving DecidableEq

/-- Remote state plus whether the conflict warning was surfaced. -/
structure RState where
  fs : RemoteFS
  warned : Bool
deriving DecidableEq

def installedDir : List Char := DEFAULT_REMAP ++ "installed".data

/-- The marker object path for a relative component (main.rs 301-306). -/
def markerPath (rel : List Char) : List Char := installedDir ++ '/' :: rel

/-- Processing of one walked entry (main.rs lines 197-286). -/
def processEntry (rpaths : List (List Char)) (defaultMode : Nat)
    (st : RState) (perms : List (List Char × Nat)) (e : Entry) :
    RState × List (List Char × Nat) × Option RErr :=
  match stripLit NIX_STORE e.path with
  | none => (st, perms, some .notInStore)
  | some erel =>
    let rp := DEFAULT_REMAP ++ erel
    match e.kind with
    | .dir mode =>
      match lookupFS st.fs rp with
      | some _ => (st, perms, some .mkdirFailed)
      | none =>
        ({ st with fs := (rp, .dir defaultMode) :: st.fs },
          perms ++ [(rp, mode)], none)
    | .file mode content =>
      match lookupFS st.fs rp with
      | some _ => (st, perms, some .createConflict)
      | none =>
        if content.isEmpty then
          ({ st with fs := (rp, .file defaultMode []) :: st.fs }, perms, none)
        else
          match rewrite rpaths content with
          | none =>
            ({ st with fs := (rp, .file defaultMode []) :: st.fs },
              perms, some .rewriteFailed)
          | some rewritten =>
            match chmodFS ((rp, .file defaultMode rewritten) :: st.fs) rp
                (chmodArg mode) with
            | none => (st, perms, some .chmodFailed)
            | some fs2 =>
              ({ st with fs := fs2 }, perms ++ [(rp, mode)], none)
    | .symlink target =>
      match (if target.head? = some '/' then remap_path target
             else some target) with
      | none => (st, perms, some .remapFailed)
      | some tgt =>
        match lookupFS st.fs rp with
        | some _ => (st, perms, some .symlinkFailed)
        | none =>
          ({ st with fs := (rp, .symlink tgt) :: st.fs }, perms, none)

/-- The walk over all entries of one artifact, aborting at the first
error (the `?` and `bail!` propagation inside the walk loop). -/
def processEntries (rpaths : List (List Char)) (defaultMode : Nat) :
    RState → List (List Char × Nat) → List Entry →
    RState × List (List Char × Nat) × Option RErr
  | st, perms, [] => (st, perms, none)
  | st, perms, e :: rest =>
    match processEntry rpaths defaultMode st perms e with
    | (st', perms', none) => processEntries rpaths defaultMode st' perms' rest
    | (st', perms', some err) => (st', perms', some err)

/-- The deferred-permission finalization pass (main.rs lines 287-300). -/
def finalizePerms : RState → List (List Char × Nat) → RState × Option RErr
  | st, [] => (st, none)
  | st, (p, m) :: rest =>
    match chmodFS st.fs p (chmodArg m) with
    | none => (st, some .chmodFailed)
    | some fs' => finalizePerms { st with fs := fs' } rest

/-- Installation of one artifact (one iteration of the loop at
main.rs lines 171-307): conflict removal, tree walk, finalization pass
and marker write, in this order. -/
def installArtifact (rpaths : List (List Char)) (defaultMode : Nat)
    (rel : List Char) (entries : List Entry) (st : RState) :
    RState × Option RErr :=
  match remap_path (NIX_STORE ++ rel) with
  | none => (st, some .remapFailed)
  | some rp =>
    let st1 := if (lookupFS st.fs rp).isSome
      then { fs := rmrfFS st.fs rp, warned := true } else st
    match processEntries rpaths defaultMode st1 [] entries with
    | (st2, perms, none) =>
      match finalizePerms st2 perms with
      | (st3, none) =>
        ({ st3 with fs := (markerPath rel, .file defaultMode []) :: st3.fs },
          none)
      | (st3, some err) => (st3, some err)
    | (st2, _, some err) => (st2, some err)

/-- The whole loop over the missing artifacts, in diff order, aborting
the run at the first per-artifact error. -/
def runArtifacts (rpaths : List (List Char)) (defaultMode : Nat) :
    List (List Char × List Entry) → RState → RState × Option RErr
  | [], st => (st, none)
  | (rel, entries) :: rest, st =>
    match installArtifact rpaths defaultMode rel entries st with
    | (st', none) => runArtifacts rpaths defaultMode rest st'
    | (st', some err) => (st', some err)

/-! Algebra of the remote filesystem operations. -/

theorem lookupFS_cons_self {fs : RemoteFS} {p : List Char} {o : RObj} :
    lookupFS ((p, o) :: fs) p = some o := by
  simp [lookupFS]

theorem lookupFS_cons_ne {fs : RemoteFS} {p q : List Char} {o : RObj}
    (h : p ≠ q) : lookupFS ((p, o) :: fs) q = lookupFS fs q := by
  simp [lookupFS, h]

theorem lookupFS_chmod_map (fs : RemoteFS) (p : List Char) (v : Nat)
    (q : List Char) :
    lookupFS (List.map
      (fun e => if e.1 = p then (e.1, setMode e.2 v) else e) fs) q =
      if q = p then (lookupFS fs q).map (fun o => setMode o v)
      else lookupFS fs q := by
  induction fs with
  | nil =>
    simp only [List.map_nil, lookupFS]
    split <;> rfl
  | cons a fs ih =>
    obtain ⟨ap, ao⟩ := a
    simp only [List.map_cons]
    by_cases hap : ap = p
    · subst hap
      by_cases haq : ap = q
      · subst haq
        simp [lookupFS]
      · rw [if_pos rfl]
        simp only [lookupFS, if_neg haq]
        exact ih
    · by_cases haq : ap = q
      · subst haq
        rw [if_neg hap]
        simp only [lookupFS, if_pos rfl]
        rw [if_neg (fun h : ap = p => hap h)]
        rfl
      · rw [if_neg hap]
        simp only [lookupFS, if_neg haq]
        exact ih

theorem chmodFS_some {fs fs' : RemoteFS} {p arg : List Char}
    (h : chmodFS fs p arg = some fs') :
    ∀ q, lookupFS fs' q =
      if q = p then (lookupFS fs q).map (fun o => setMode o (parseOct arg))
      else lookupFS fs q := by
  intro q
  unfold chmodFS at h
  cases hl : lookupFS fs p with
  | none => rw [hl] at h; cases h
  | some o =>
    rw [hl] at h
    cases h
    exact lookupFS_chmod_map fs p (parseOct arg) q

theorem chmodFS_cons_self {fs : RemoteFS} {p arg : List Char} {o : RObj} :
    ∃ fs', chmodFS ((p, o) :: fs) p arg = some fs' := by
  unfold chmodFS
  rw [lookupFS_cons_self]
  exact ⟨_, rfl⟩

/-! Characterization of one entry-processing step. -/

/-- The deferred-permission record produced by one entry: directories
always, regular files only when nonempty, symlinks never (main.rs
lines 209, 221-225, 258). -/
def permOf (e : Entry) : Option (List Char × Nat) :=
  match stripLit NIX_STORE e.path with
  | none => none
  | some erel =>
    match e.kind with
    | .dir m => some (DEFAULT_REMAP ++ erel, m)
    | .file m c =>
      if c.isEmpty then none else some (DEFAULT_REMAP ++ erel, m)
    | .symlink _ => none

/-- The remote object present at the entry's remapped path right after
the walk step that created it. -/
def expectedObj (rpaths : List (List Char)) (dm : Nat) : EKind → Option RObj
  | .dir _ => some (.dir dm)
  | .file m c =>
    if c.isEmpty then some (.file dm [])
    else (rewrite rpaths c).map
      (fun rw => .file (parseOct (chmodArg m)) rw)
  | .symlink t =>
    (if t.head? = some '/' then remap_path t else some t).map
      (fun tgt => .symlink tgt)

theorem processEntry_ok_spec {rpaths : List (List Char)} {dm : Nat}
    {st : RState} {perms : List (List Char × Nat)} {e : Entry}
    {st' : RState} {perms' : List (List Char × Nat)}
    (h : processEntry rpaths dm st perms e = (st', perms', none)) :
    st'.warned = st.warned ∧
    perms' = perms ++ (permOf e).toList ∧
    ∃ rp, remap_path e.path = some rp ∧
      lookupFS st.fs rp = none ∧
      (∃ o, expectedObj rpaths dm e.kind = some o ∧
        lookupFS st'.fs rp = some o) ∧
      (∀ q, q ≠ rp → lookupFS st'.fs q = lookupFS st.fs q) := by
  unfold processEntry at h
  cases hstrip : stripLit NIX_STORE e.path with
  | none => rw [hstrip] at h; simp at h
  | some erel =>
    rw [hstrip] at h
    simp only [] at h
    have hrp : remap_path e.path = some (DEFAULT_REMAP ++ erel) := by
      unfold remap_path
      rw [hstrip]
      rfl
    cases hk : e.kind with
    | dir mode =>
      rw [hk] at h
      simp only [] at h
      cases hl : lookupFS st.fs (DEFAULT_REMAP ++ erel) with
      | some o => rw [hl] at h; simp at h
      | none =>
        rw [hl] at h
        simp only [] at h
        injection h with h1 h23
        injection h23 with h2 h3
        subst h1
        subst h2
        refine ⟨rfl, by simp [permOf, hstrip, hk], DEFAULT_REMAP ++ erel,
          hrp, hl, ?_, ?_⟩
        · exact ⟨.dir dm, by simp [expectedObj, hk], lookupFS_cons_self⟩
        · intro q hq
          exact lookupFS_cons_ne (Ne.symm hq)
    | file mode content =>
      rw [hk] at h
      simp only [] at h
      cases hl : lookupFS st.fs (DEFAULT_REMAP ++ erel) with
      | some o => rw [hl] at h; simp at h
      | none =>
        rw [hl] at h
        simp only [] at h
        cases hce : content.isEmpty with
        | true =>
          rw [hce] at h
          rw [if_pos rfl] at h
          injection h with h1 h23
          injection h23 with h2 h3
          subst h1
          subst h2
          refine ⟨rfl, by simp [permOf, hstrip, hk, hce], DEFAULT_REMAP ++ erel,
            hrp, hl, ?_, ?_⟩
          · exact ⟨.file dm [], by simp [expectedObj, hk, hce],
              lookupFS_cons_self⟩
          · intro q hq
            exact lookupFS_cons_ne (Ne.symm hq)
        | false =>
          rw [hce] at h
          rw [if_neg (by simp)] at h
          cases hrw : rewrite rpaths content with
          | none => rw [hrw] at h; simp at h
          | some rewritten =>
            rw [hrw] at h
            simp only [] at h
            obtain ⟨fs2, hfs2⟩ := @chmodFS_cons_self st.fs
              (DEFAULT_REMAP ++ erel) (chmodArg mode) (.file dm rewritten)
            rw [hfs2] at h
            simp only [] at h
            injection h with h1 h23
            injection h23 with h2 h3
            subst h1
            subst h2
            have hlk := chmodFS_some hfs2
            refine ⟨rfl, by simp [permOf, hstrip, hk, hce],
              DEFAULT_REMAP ++ erel, hrp, hl, ?_, ?_⟩
            · refine ⟨.file (parseOct (chmodArg mode)) rewritten,
                by simp [expectedObj, hk, hce, hrw], ?_⟩
              show lookupFS fs2 (DEFAULT_REMAP ++ erel) = _
              rw [hlk, if_pos rfl, lookupFS_cons_self]
              rfl
            · intro q hq
              show lookupFS fs2 q = _
              rw [hlk, if_neg hq]
              exact lookupFS_cons_ne (Ne.symm hq)
    | symlink target =>
      rw [hk] at h
      simp only [] at h
      cases htgt : (if target.head? = some '/' then remap_path target
          else some target) with
      | none => rw [htgt] at h; simp at h
      | some tgt =>
        rw [htgt] at h
        simp only [] at h
        cases hl : lookupFS st.fs (DEFAULT_REMAP ++ erel) with
        | some o => rw [hl] at h; simp at h
        | none =>
          rw [hl] at h
          simp only [] at h
          injection h with h1 h23
          injection h23 with h2 h3
          subst h1
          subst h2
          refine ⟨rfl, by simp [permOf, hstrip, hk], DEFAULT_REMAP ++ erel,
            hrp, hl, ?_, ?_⟩
          · exact ⟨.symlink tgt, by simp [expectedObj, hk, htgt],
              lookupFS_cons_self⟩
          · intro q hq
            exact lookupFS_cons_ne (Ne.symm hq)

theorem processEntry_err_spec {rpaths : List (List Char)} {dm : Nat}
    {st : RState} {perms : List (List Char × Nat)} {e : Entry}
    {st' : RState} {perms' : List (List Char × Nat)} {err : RErr}
    (h : processEntry rpaths dm st perms e = (st', perms', some err)) :
    st'.warned = st.warned ∧
    perms' = perms ∧
    ∀ q, remap_path e.path ≠ some q →
      lookupFS st'.fs q = lookupFS st.fs q := by
  unfold processEntry at h
  cases hstrip : stripLit NIX_STORE e.path with
  | none =>
    rw [hstrip] at h
    simp only [] at h
    injection h with h1 h23
    injection h23 with h2 h3
    subst h1
    subst h2
    exact ⟨rfl, rfl, fun q _ => rfl⟩
  | some erel =>
    rw [hstrip] at h
    simp only [] at h
    have hrp : remap_path e.path = some (DEFAULT_REMAP ++ erel) := by
      unfold remap_path
      rw [hstrip]
      rfl
    cases hk : e.kind with
    | dir mode =>
      rw [hk] at h
      simp only [] at h
      cases hl : lookupFS st.fs (DEFAULT_REMAP ++ erel) with
      | some o =>
        rw [hl] at h
        injection h with h1 h23
        injection h23 with h2 h3
        subst h1
        subst h2
        exact ⟨rfl, rfl, fun q _ => rfl⟩
      | none => rw [hl] at h; simp at h
    | file mode content =>
      rw [hk] at h
      simp only [] at h
      cases hl : lookupFS st.fs (DEFAULT_REMAP ++ erel) with
      | some o =>
        rw [hl] at h
        injection h with h1 h23
        injection h23 with h2 h3
        subst h1
        subst h2
        exact ⟨rfl, rfl, fun q _ => rfl⟩
      | none =>
        rw [hl] at h
        simp only [] at h
        cases hce : content.isEmpty with
        | true =>
          rw [hce] at h
          rw [if_pos rfl] at h
          simp at h
        | false =>
          rw [hce] at h
          rw [if_neg (by simp)] at h
          cases hrw : rewrite rpaths content with
          | none =>
            rw [hrw] at h
            simp only [] at h
            injection h with h1 h23
            injection h23 with h2 h3
            subst h1
            subst h2
            refine ⟨rfl, rfl, fun q hq => ?_⟩
            have hne : DEFAULT_REMAP ++ erel ≠ q := fun he => hq (he ▸ hrp)
            exact lookupFS_cons_ne hne
          | some rewritten =>
            rw [hrw] at h
            simp only [] at h
            obtain ⟨fs2, hfs2⟩ := @chmodFS_cons_self st.fs
              (DEFAULT_REMAP ++ erel) (chmodArg mode) (.file dm rewritten)
            rw [hfs2] at h
            simp at h
    | symlink target =>
      rw [hk] at h
      simp only [] at h
      cases htgt : (if target.head? = some '/' then remap_path target
          else some target) with
      | none =>
        rw [htgt] at h
        simp only [] at h
        injection h with h1 h23
        injection h23 with h2 h3
        subst h1
        subst h2
        exact ⟨rfl, rfl, fun q _ => rfl⟩
      | some tgt =>
        rw [htgt] at h
        simp only [] at h
        cases hl : lookupFS st.fs (DEFAULT_REMAP ++ erel) with
        | some o =>
          rw [hl] at h
          injection h with h1 h23
          injection h23 with h2 h3
          subst h1
          subst h2
          exact ⟨rfl, rfl, fun q _ => rfl⟩
        | none => rw [hl] at h; simp at h

theorem permOf_eq_some {e : Entry} {pm : List Char × Nat}
    (h : permOf e = some pm) : remap_path e.path = some pm.1 := by
  unfold permOf at h
  cases hstrip : stripLit NIX_STORE e.path with
  | none => rw [hstrip] at h; cases h
  | some erel =>
    rw [hstrip] at h
    have hrp : remap_path e.path = some (DEFAULT_REMAP ++ erel) := by
      unfold remap_path
      rw [hstrip]
      rfl
    cases hk : e.kind with
    | dir mode =>
      rw [hk] at h
      simp only [] at h
      cases h
      exact hrp
    | file mode content =>
      rw [hk] at h
      simp only [] at h
      cases hce : content.isEmpty with
      | true => rw [hce, if_pos rfl] at h; cases h
      | false =>
        rw [hce, if_neg (by simp)] at h
        cases h
        exact hrp
    | symlink target => rw [hk] at h; simp only [] at h; cases h

/-- The object recorded for a deferred permission is a directory or a
nonempty regular file, never a symlink (used to frame symlinks through
the finalization pass). -/
theorem permOf_kind {e : Entry} {pm : List Char × Nat}
    (h : permOf e = some pm) :
    (∃ m, e.kind = .dir m) ∨
    ∃ m c, e.kind = .file m c ∧ c.isEmpty = false := by
  unfold permOf at h
  cases hstrip : stripLit NIX_STORE e.path with
  | none => rw [hstrip] at h; cases h
  | some erel =>
    rw [hstrip] at h
    cases hk : e.kind with
    | dir mode => exact Or.inl ⟨mode, rfl⟩
    | file mode content =>
      rw [hk] at h
      simp only [] at h
      cases hce : content.isEmpty with
      | true => rw [hce, if_pos rfl] at h; cases h
      | false => exact Or.inr ⟨mode, content, rfl, hce⟩
    | symlink target => rw [hk] at h; simp only [] at h; cases h

/-! Invariants of the whole walk. -/

theorem processEntries_ok {rpaths : List (List Char)} {dm : Nat} :
    ∀ {l : List Entry} {st : RState} {perms : List (List Char × Nat)}
      {st' : RState} {perms' : List (List Char × Nat)},
    processEntries rpaths dm st perms l = (st', perms', none) →
    st'.warned = st.warned ∧
    perms' = perms ++ l.filterMap permOf ∧
    (∀ p o, lookupFS st.fs p = some o → lookupFS st'.fs p = some o) ∧
    (∀ q, (∀ e ∈ l, remap_path e.path ≠ some q) →
      lookupFS st'.fs q = lookupFS st.fs q) ∧
    (∀ e ∈ l, ∃ rp, remap_path e.path = some rp ∧
      ∃ o, expectedObj rpaths dm e.kind = some o ∧
        lookupFS st'.fs rp = some o) := by
  intro l
  induction l with
  | nil =>
    intro st perms st' perms' h
    unfold processEntries at h
    injection h with h1 h23
    injection h23 with h2 h3
    subst h1
    subst h2
    exact ⟨rfl, by simp, fun p o hp => hp, fun q _ => rfl, by simp⟩
  | cons e rest ih =>
    intro st perms st' perms' h
    unfold processEntries at h
    rcases hstep : processEntry rpaths dm st perms e with ⟨st1, perms1, errO⟩
    rw [hstep] at h
    cases errO with
    | some err => simp at h
    | none =>
      simp only [] at h
      obtain ⟨hw, hperm, rp, hrp, hfresh, ⟨o, ho, hlook⟩, hframe⟩ :=
        processEntry_ok_spec hstep
      obtain ⟨ihw, ihperm, ihpres, ihframe, ihall⟩ := ih h
      refine ⟨by rw [ihw, hw], ?_, ?_, ?_, ?_⟩
      · rw [ihperm, hperm, List.filterMap_cons]
        cases hpo : permOf e <;> simp
      · intro p o' hp
        have hne : p ≠ rp := fun he => by rw [he, hfresh] at hp; cases hp
        exact ihpres p o' (by rw [hframe p hne]; exact hp)
      · intro q hq
        have hne : q ≠ rp := fun he =>
          hq e (List.mem_cons_self e rest) (by rw [he]; exact hrp)
        rw [ihframe q (fun e' he' => hq e' (List.mem_cons_of_mem e he'))]
        exact hframe q hne
      · intro e' he'
        rcases List.mem_cons.mp he' with rfl | he2
        · exact ⟨rp, hrp, o, ho, ihpres rp o hlook⟩
        · exact ihall e' he2

theorem processEntries_any {rpaths : List (List Char)} {dm : Nat} :
    ∀ {l : List Entry} {st : RState} {perms : List (List Char × Nat)}
      {st' : RState} {perms' : List (List Char × Nat)} {err : Option RErr},
    processEntries rpaths dm st perms l = (st', perms', err) →
    st'.warned = st.warned ∧
    (∀ q, (∀ e ∈ l, remap_path e.path ≠ some q) →
      lookupFS st'.fs q = lookupFS st.fs q) := by
  intro l
  induction l with
  | nil =>
    intro st perms st' perms' err h
    unfold processEntries at h
    injection h with h1 h23
    injection h23 with h2 h3
    subst h1
    exact ⟨rfl, fun q _ => rfl⟩
  | cons e rest ih =>
    intro st perms st' perms' err h
    unfold processEntries at h
    rcases hstep : processEntry rpaths dm st perms e with ⟨st1, perms1, errO⟩
    rw [hstep] at h
    cases errO with
    | some err1 =>
      simp only [] at h
      injection h with h1 h23
      injection h23 with h2 h3
      subst h1
      obtain ⟨hw, -, hframe⟩ := processEntry_err_spec hstep
      refine ⟨hw, fun q hq => hframe q ?_⟩
      intro hcon
      exact hq e (List.mem_cons_self e rest) hcon
    | none =>
      simp only [] at h
      obtain ⟨hw, -, rp, hrp, -, -, hframe⟩ := processEntry_ok_spec hstep
      obtain ⟨ihw, ihframe⟩ := ih h
      refine ⟨by rw [ihw, hw], fun q hq => ?_⟩
      rw [ihframe q (fun e' he' => hq e' (List.mem_cons_of_mem e he'))]
      refine hframe q ?_
      intro he
      exact hq e (List.mem_cons_self e rest) (by rw [he]; exact hrp)

theorem processEntries_nodup {rpaths : List (List Char)} {dm : Nat} :
    ∀ {l : List Entry} {st : RState} {perms : List (List Char × Nat)}
      {st' : RState} {perms' : List (List Char × Nat)},
    processEntries rpaths dm st perms l = (st', perms', none) →
    (∀ pm ∈ perms, (lookupFS st.fs pm.1).isSome = true) →
    (perms.map Prod.fst).Nodup →
    (perms'.map Prod.fst).Nodup ∧
    (∀ pm ∈ perms', (lookupFS st'.fs pm.1).isSome = true) := by
  intro l
  induction l with
  | nil =>
    intro st perms st' perms' h hinv hnd
    unfold processEntries at h
    injection h with h1 h23
    injection h23 with h2 h3
    subst h1
    subst h2
    exact ⟨hnd, hinv⟩
  | cons e rest ih =>
    intro st perms st' perms' h hinv hnd
    unfold processEntries at h
    rcases hstep : processEntry rpaths dm st perms e with ⟨st1, perms1, errO⟩
    rw [hstep] at h
    cases errO with
    | some err => simp at h
    | none =>
      simp only [] at h
      obtain ⟨-, hperm, rp, hrp, hfresh, ⟨o, -, hlook⟩, hframe⟩ :=
        processEntry_ok_spec hstep
      have hinv1 : ∀ pm ∈ perms1, (lookupFS st1.fs pm.1).isSome = true := by
        intro pm hpm
        rw [hperm] at hpm
        rcases List.mem_append.mp hpm with hold | hnew
        · have hs := hinv pm hold
          have hne : pm.1 ≠ rp := by
            intro he
            rw [he, hfresh] at hs
            cases hs
          rw [hframe pm.1 hne]
          exact hs
        · cases hpo : permOf e with
          | none => rw [hpo] at hnew; cases hnew
          | some pm0 =>
            rw [hpo, Option.toList_some] at hnew
            have hpm0 : pm = pm0 := List.mem_singleton.mp hnew
            subst hpm0
            have := permOf_eq_some hpo
            rw [hrp] at this
            have hpm1 : pm.1 = rp := (Option.some.inj this).symm
            rw [hpm1, hlook]
            rfl
      have hnd1 : (perms1.map Prod.fst).Nodup := by
        rw [hperm]
        cases hpo : permOf e with
        | none => simpa using hnd
        | some pm0 =>
          have := permOf_eq_some hpo
          rw [hrp] at this
          have hpm1 : pm0.1 = rp := (Option.some.inj this).symm
          rw [List.map_append]
          refine List.Nodup.append hnd (by simp) ?_
          intro x hx hx2
          simp only [Option.toList_some, List.map_cons, List.map_nil,
            List.mem_singleton] at hx2
          subst hx2
          rcases List.mem_map.mp hx with ⟨pm, hpm, hfst⟩
          have hs := hinv pm hpm
          rw [hfst, hpm1, hfresh] at hs
          cases hs
      exact ih h hinv1 hnd1

theorem processEntries_append {rpaths : List (List Char)} {dm : Nat} :
    ∀ (l1 l2 : List Entry) (st : RState) (perms : List (List Char × Nat)),
    processEntries rpaths dm st perms (l1 ++ l2) =
      match processEntries rpaths dm st perms l1 with
      | (st1, p1, none) => processEntries rpaths dm st1 p1 l2
      | (st1, p1, some err) => (st1, p1, some err) := by
  intro l1
  induction l1 with
  | nil => intro l2 st perms; rfl
  | cons e rest ih =>
    intro l2 st perms
    have lhs : processEntries rpaths dm st perms ((e :: rest) ++ l2) =
        match processEntry rpaths dm st perms e with
        | (st1, p1, none) => processEntries rpaths dm st1 p1 (rest ++ l2)
        | (st1, p1, some err) => (st1, p1, some err) := rfl
    have rhs1 : processEntries rpaths dm st perms (e :: rest) =
        match processEntry rpaths dm st perms e with
        | (st1, p1, none) => processEntries rpaths dm st1 p1 rest
        | (st1, p1, some err) => (st1, p1, some err) := rfl
    rw [lhs, rhs1]
    rcases hstep : processEntry rpaths dm st perms e with ⟨st1, perms1, errO⟩
    cases errO with
    | some err => rfl
    | none =>
      simp only []
      exact ih l2 st1 perms1

/-! Invariants of the finalization pass. -/

theorem finalizePerms_warned :
    ∀ {perms : List (List Char × Nat)} {st st' : RState} {err : Option RErr},
    finalizePerms st perms = (st', err) → st'.warned = st.warned := by
  intro perms
  induction perms with
  | nil =>
    intro st st' err h
    injection h with h1 h2
    subst h1
    rfl
  | cons pm rest ih =>
    intro st st' err h
    obtain ⟨p, m⟩ := pm
    unfold finalizePerms at h
    cases hc : chmodFS st.fs p (chmodArg m) with
    | none =>
      rw [hc] at h
      injection h with h1 h2
      subst h1
      rfl
    | some fs1 =>
      rw [hc] at h
      simp only [] at h
      have hih := ih h
      exact hih

theorem finalizePerms_frame :
    ∀ {perms : List (List Char × Nat)} {st st' : RState} {err : Option RErr},
    finalizePerms st perms = (st', err) →
    ∀ q, (∀ pm ∈ perms, pm.1 ≠ q) →
      lookupFS st'.fs q = lookupFS st.fs q := by
  intro perms
  induction perms with
  | nil =>
    intro st st' err h q _
    injection h with h1 h2
    subst h1
    rfl
  | cons pm rest ih =>
    intro st st' err h q hq
    obtain ⟨p, m⟩ := pm
    unfold finalizePerms at h
    cases hc : chmodFS st.fs p (chmodArg m) with
    | none =>
      rw [hc] at h
      injection h with h1 h2
      subst h1
      rfl
    | some fs1 =>
      rw [hc] at h
      simp only [] at h
      have hstep := chmodFS_some hc q
      rw [if_neg (fun he => hq (p, m) (List.mem_cons_self _ _) he.symm)] at hstep
      have hih := ih h q (fun pm' hpm' => hq pm' (List.mem_cons_of_mem _ hpm'))
      rw [hih]
      exact hstep

theorem finalizePerms_ok_lookup :
    ∀ {perms : List (List Char × Nat)} {st st' : RState},
    finalizePerms st perms = (st', none) →
    (perms.map Prod.fst).Nodup →
    ∀ pm ∈ perms, ∀ o, lookupFS st.fs pm.1 = some o →
      lookupFS st'.fs pm.1 = some (setMode o (parseOct (chmodArg pm.2))) := by
  intro perms
  induction perms with
  | nil =>
    intro st st' h hnd pm hpm
    cases hpm
  | cons pm0 rest ih =>
    intro st st' h hnd pm hpm o ho
    obtain ⟨p, m⟩ := pm0
    unfold finalizePerms at h
    cases hc : chmodFS st.fs p (chmodArg m) with
    | none => rw [hc] at h; simp at h
    | some fs1 =>
      rw [hc] at h
      simp only [] at h
      rw [List.map_cons, List.nodup_cons] at hnd
      rcases List.mem_cons.mp hpm with heq | hrest
      · subst heq
        dsimp only at ho hnd ⊢
        have hstep := chmodFS_some hc p
        rw [if_pos rfl, ho] at hstep
        have hframe := finalizePerms_frame h p ?_
        · rw [hframe, hstep]
          rfl
        · intro pm' hpm' he
          exact hnd.1 (he ▸ List.mem_map_of_mem Prod.fst hpm')
      · have hne : pm.1 ≠ p := by
          intro he
          have hmem : pm.1 ∈ List.map Prod.fst rest :=
            List.mem_map_of_mem Prod.fst hrest
          rw [he] at hmem
          exact hnd.1 hmem
        have hstep := chmodFS_some hc pm.1
        rw [if_neg hne, ho] at hstep
        have hih := ih h hnd.2 pm hrest o hstep
        exact hih

/-! Behaviour of recursive removal on lookups. -/

theorem lookupFS_filter_none {fs : RemoteFS} {q : List Char}
    (f : List Char × RObj → Bool) (h : lookupFS fs q = none) :
    lookupFS (List.filter f fs) q = none := by
  induction fs with
  | nil => rfl
  | cons a fs ih =>
    obtain ⟨ap, ao⟩ := a
    by_cases hap : ap = q
    · rw [hap, lookupFS_cons_self] at h
      cases h
    · rw [lookupFS_cons_ne hap] at h
      cases hf : f (ap, ao) with
      | true =>
        rw [List.filter_cons_of_pos hf, lookupFS_cons_ne hap]
        exact ih h
      | false =>
        rw [List.filter_cons_of_neg (by simp [hf])]
        exact ih h

theorem lookupFS_rmrf_none {fs : RemoteFS} {p q : List Char}
    (h : lookupFS fs q = none) : lookupFS (rmrfFS fs p) q = none :=
  lookupFS_filter_none _ h

theorem lookupFS_rmrf_removed {fs : RemoteFS} {p q : List Char}
    (h : q = p ∨ (p ++ ['/']) <+: q) : lookupFS (rmrfFS fs p) q = none := by
  induction fs with
  | nil => rfl
  | cons a fs ih =>
    obtain ⟨ap, ao⟩ := a
    unfold rmrfFS at ih ⊢
    rw [List.filter_cons]
    by_cases hap : ap = q
    · subst hap
      have hdec : decide (ap = p ∨ (p ++ ['/']) <+: ap) = true := decide_eq_true h
      rw [if_neg (by simp [hdec])]
      exact ih
    · cases hf : (!decide (ap = p ∨ (p ++ ['/']) <+: ap)) with
      | true =>
        rw [if_pos rfl]
        rw [lookupFS_cons_ne hap]
        exact ih
      | false =>
        rw [if_neg (by simp)]
        exact ih

/-! Decomposition of a single artifact installation. -/

theorem installArtifact_ok_parts {rpaths : List (List Char)} {dm : Nat}
    {rel : List Char} {entries : List Entry} {st st' : RState}
    (h : installArtifact rpaths dm rel entries st = (st', none)) :
    ∃ st2 perms st3,
      processEntries rpaths dm
        (if (lookupFS st.fs (DEFAULT_REMAP ++ rel)).isSome
          then RState.mk (rmrfFS st.fs (DEFAULT_REMAP ++ rel)) true else st)
        [] entries = (st2, perms, none) ∧
      finalizePerms st2 perms = (st3, none) ∧
      st' = RState.mk ((markerPath rel, .file dm []) :: st3.fs) st3.warned := by
  unfold installArtifact at h
  rw [remap_path_store] at h
  simp only [] at h
  rcases hpe : processEntries rpaths dm
      (if (lookupFS st.fs (DEFAULT_REMAP ++ rel)).isSome
        then RState.mk (rmrfFS st.fs (DEFAULT_REMAP ++ rel)) true else st)
      [] entries with ⟨st2, perms2, err2⟩
  rw [hpe] at h
  cases err2 with
  | some err => simp at h
  | none =>
    simp only [] at h
    rcases hfin : finalizePerms st2 perms2 with ⟨st3, err3⟩
    rw [hfin] at h
    cases err3 with
    | some err => simp at h
    | none =>
      simp only [] at h
      injection h with h1 h2
      exact ⟨st2, perms2, st3, rfl, hfin, h1.symm⟩

theorem installArtifact_err_parts {rpaths : List (List Char)} {dm : Nat}
    {rel : List Char} {entries : List Entry} {st st' : RState} {err : RErr}
    (h : installArtifact rpaths dm rel entries st = (st', some err)) :
    ∃ st1, (st1 = if (lookupFS st.fs (DEFAULT_REMAP ++ rel)).isSome
        then RState.mk (rmrfFS st.fs (DEFAULT_REMAP ++ rel)) true else st) ∧
      ((∃ perms', processEntries rpaths dm st1 [] entries =
          (st', perms', some err)) ∨
       (∃ st2 perms, processEntries rpaths dm st1 [] entries =
          (st2, perms, none) ∧
         finalizePerms st2 perms = (st', some err))) := by
  unfold installArtifact at h
  rw [remap_path_store] at h
  simp only [] at h
  rcases hpe : processEntries rpaths dm
      (if (lookupFS st.fs (DEFAULT_REMAP ++ rel)).isSome
        then RState.mk (rmrfFS st.fs (DEFAULT_REMAP ++ rel)) true else st)
      [] entries with ⟨st2, perms2, err2⟩
  rw [hpe] at h
  cases err2 with
  | some err2' =>
    simp only [] at h
    injection h with h1 h2
    injection h2 with h2
    refine ⟨_, rfl, Or.inl ⟨perms2, ?_⟩⟩
    rw [hpe, h1, h2]
  | none =>
    simp only [] at h
    rcases hfin : finalizePerms st2 perms2 with ⟨st3, err3⟩
    rw [hfin] at h
    cases err3 with
    | some err3' =>
      simp only [] at h
      injection h with h1 h2
      injection h2 with h2
      refine ⟨_, rfl, Or.inr ⟨st2, perms2, hpe, ?_⟩⟩
      rw [hfin, h1, h2]
    | none => simp at h

theorem remap_path_inj {x : List Char} {rel : List Char}
    (h : remap_path x = some (DEFAULT_REMAP ++ rel)) : x = NIX_STORE ++ rel := by
  obtain ⟨z, hz1, hz2⟩ := remap_path_eq_some.mp h
  rw [hz1, List.append_cancel_left hz2.symm]

/-- C3 (amended): after a successful artifact installation, every
Directory entry and every RegularFile entry with nonzero length has, at
its remapped remote path, an object whose low nine permission bits
equal the low nine bits of the local entry's mode.  (Zero-length
regular files are excluded: the walk skips both their immediate chmod
and their deferred permission record, see the C3 counterexample.) -/
theorem claim_C3_amended {rpaths : List (List Char)} {dm : Nat}
    {rel : List Char} {entries : List Entry} {st st' : RState}
    (h : installArtifact rpaths dm rel entries st = (st', none))
    (hnm : ∀ e ∈ entries, remap_path e.path ≠ some (markerPath rel)) :
    ∀ e ∈ entries, ∀ m,
      (e.kind = .dir m ∨ ∃ c, e.kind = .file m c ∧ c ≠ []) →
      ∃ rp o, remap_path e.path = some rp ∧
        lookupFS st'.fs rp = some o ∧ modeOf o % 512 = m % 512 := by
  obtain ⟨st2, perms, st3, hpe, hfin, hst'⟩ := installArtifact_ok_parts h
  obtain ⟨-, hperm, -, -, hall⟩ := processEntries_ok hpe
  obtain ⟨hnd, -⟩ := processEntries_nodup hpe (by simp) (by simp)
  rw [hperm, List.nil_append] at hnd
  intro e he m hkind
  obtain ⟨rp, hrp, o, ho, hlook⟩ := hall e he
  obtain ⟨erel, hstrip, hrpv⟩ := Option.map_eq_some'.mp hrp
  have hpm : (rp, m) ∈ perms := by
    rw [hperm, List.nil_append]
    refine List.mem_filterMap.mpr ⟨e, he, ?_⟩
    unfold permOf
    rw [hstrip]
    rcases hkind with hk | ⟨c, hk, hcne⟩
    · rw [hk]
      simp only []
      rw [hrpv]
    · rw [hk]
      simp only []
      rw [if_neg (fun hh => hcne (List.isEmpty_iff.mp hh)), hrpv]
  rw [hperm, List.nil_append] at hpm
  have hnd' : ((entries.filterMap permOf).map Prod.fst).Nodup := hnd
  have hfinlook := finalizePerms_ok_lookup hfin (by rw [hperm, List.nil_append]; exact hnd')
    (rp, m) (by rw [hperm, List.nil_append]; exact hpm) o hlook
  have hne : markerPath rel ≠ rp := by
    intro heq
    exact hnm e he (heq ▸ hrp)
  rw [hst']
  refine ⟨rp, setMode o (parseOct (chmodArg m)), hrp, ?_, ?_⟩
  · show lookupFS ((markerPath rel, RObj.file dm []) :: st3.fs) rp = _
    rw [lookupFS_cons_ne hne]
    exact hfinlook
  · rw [parseOct_chmodArg]
    rcases hkind with hk | ⟨c, hk, hcne⟩
    · rw [hk] at ho
      simp only [expectedObj] at ho
      have hov : o = .dir dm := (Option.some.inj ho).symm
      subst hov
      show (m % 512) % 512 = m % 512
      omega
    · rw [hk] at ho
      simp only [expectedObj] at ho
      rw [if_neg (fun hh => hcne (List.isEmpty_iff.mp hh))] at ho
      obtain ⟨rw0, -, hov⟩ := Option.map_eq_some'.mp ho
      subst hov
      show (m % 512) % 512 = m % 512
      omega

/-- C3 counterexample: the claim as frozen quantifies over every
RegularFile entry, but a zero-length regular file is created with the
transport's default mode and never receives a permission change: with
default mode 420 (octal 644) and local mode 292 (octal 444), the
remote low nine bits differ from the local low nine bits after a fully
successful installation. -/
theorem claim_C3_counterexample :
    ∃ st' : RState,
      installArtifact [] 420 "aaaa-x".data
        [⟨NIX_STORE ++ "aaaa-x".data, .dir 493⟩,
         ⟨NIX_STORE ++ "aaaa-x/f".data, .file 292 []⟩]
        ⟨[], false⟩ = (st', none) ∧
      lookupFS st'.fs (DEFAULT_REMAP ++ "aaaa-x/f".data) =
        some (.file 420 []) ∧
      ¬ modeOf (RObj.file 420 []) % 512 = 292 % 512 := by
  refine ⟨_, rfl, ?_, by decide⟩
  decide

theorem claim_C3_witness :
    ∃ rp o,
      remap_path (NIX_STORE ++ "aaaa-x".data) = some rp ∧
      lookupFS (installArtifact [] 420 "aaaa-x".data
        [⟨NIX_STORE ++ "aaaa-x".data, .dir 493⟩,
         ⟨NIX_STORE ++ "aaaa-x/f".data, .file 292 []⟩]
        ⟨[], false⟩).1.fs rp = some o ∧
      modeOf o % 512 = 493 % 512 :=
  @claim_C3_amended [] 420 "aaaa-x".data
    [⟨NIX_STORE ++ "aaaa-x".data, .dir 493⟩,
      ⟨NIX_STORE ++ "aaaa-x/f".data, .file 292 []⟩]
    ⟨[], false⟩
    ((installArtifact [] 420 "aaaa-x".data
      [⟨NIX_STORE ++ "aaaa-x".data, .dir 493⟩,
       ⟨NIX_STORE ++ "aaaa-x/f".data, .file 292 []⟩] ⟨[], false⟩).1)
    (by rfl) (by decide)
    ⟨NIX_STORE ++ "aaaa-x".data, .dir 493⟩ (by decide) 493 (Or.inl rfl)

/-- When installing an artifact fails, its marker is not present in the
resulting remote state (given it was absent initially and no walked
entry remaps onto the marker path). -/
theorem marker_none_on_err {rpaths : List (List Char)} {dm : Nat}
    {rel : List Char} {entries : List Entry} {st st' : RState} {err : RErr}
    (h : installArtifact rpaths dm rel entries st = (st', some err))
    (hm0 : lookupFS st.fs (markerPath rel) = none)
    (hnm : ∀ e ∈ entries, remap_path e.path ≠ some (markerPath rel)) :
    lookupFS st'.fs (markerPath rel) = none := by
  obtain ⟨st1, hst1, hcase⟩ := installArtifact_err_parts h
  have hm1 : lookupFS st1.fs (markerPath rel) = none := by
    rw [hst1]
    split
    · exact lookupFS_rmrf_none hm0
    · exact hm0
  rcases hcase with ⟨perms', hpe⟩ | ⟨st2, perms, hpe, hfin⟩
  · have hfr := (processEntries_any hpe).2 (markerPath rel)
      (fun e he => hnm e he)
    rw [hfr]
    exact hm1
  · have hfr2 := (processEntries_any hpe).2 (markerPath rel)
      (fun e he => hnm e he)
    have hperm := (processEntries_ok hpe).2.1
    have hfr := finalizePerms_frame hfin (markerPath rel) ?_
    · rw [hfr, hfr2]
      exact hm1
    · intro pm hpm he
      rw [hperm, List.nil_append] at hpm
      rcases List.mem_filterMap.mp hpm with ⟨e, he', hpo⟩
      have hrm := permOf_eq_some hpo
      rw [he] at hrm
      exact hnm e he' hrm

/-- C4: the marker for an artifact is written only after the artifact's
full tree replication and the deferred-permission finalization both
succeed: any failure while installing or finalizing artifact i makes
the whole run abort with that error (so no later artifact is
processed), and leaves artifact i un-marked. -/
theorem claim_C4 {rpaths : List (List Char)} {dm : Nat} {rel : List Char}
    {entries : List Entry} {st st' : RState} {err : RErr}
    (rest : List (List Char × List Entry))
    (hfail : installArtifact rpaths dm rel entries st = (st', some err))
    (hm0 : lookupFS st.fs (markerPath rel) = none)
    (hnm : ∀ e ∈ entries, remap_path e.path ≠ some (markerPath rel)) :
    runArtifacts rpaths dm ((rel, entries) :: rest) st = (st', some err) ∧
    lookupFS st'.fs (markerPath rel) = none := by
  constructor
  · have hrun : runArtifacts rpaths dm ((rel, entries) :: rest) st =
        match installArtifact rpaths dm rel entries st with
        | (st1, none) => runArtifacts rpaths dm rest st1
        | (st1, some e) => (st1, some e) := rfl
    rw [hrun, hfail]
  · exact marker_none_on_err hfail hm0 hnm

theorem claim_C4_witness :
    runArtifacts [] 0 [("aaaa-x".data, [⟨"bad".data, .dir 0⟩])] ⟨[], false⟩ =
      (⟨[], false⟩, some .notInStore) ∧
    lookupFS (⟨[], false⟩ : RState).fs (markerPath "aaaa-x".data) = none :=
  claim_C4 [] (by rfl) (by rfl) (by decide)

/-- C5: after a successful artifact installation, every Symlink entry
has a remote symlink at its remapped path whose target is the remapping
of the local target when the local target is a store-rooted absolute
path, and is byte-identical to the local target when the local target
is relative. -/
theorem claim_C5 {rpaths : List (List Char)} {dm : Nat} {rel : List Char}
    {entries : List Entry} {st st' : RState}
    (h : installArtifact rpaths dm rel entries st = (st', none))
    (hnm : ∀ e ∈ entries, remap_path e.path ≠ some (markerPath rel)) :
    ∀ e ∈ entries, ∀ t, e.kind = .symlink t →
      ∃ rp, remap_path e.path = some rp ∧
        (∀ r, t = NIX_STORE ++ r →
          lookupFS st'.fs rp = some (.symlink (DEFAULT_REMAP ++ r))) ∧
        (t.head? ≠ some '/' → lookupFS st'.fs rp = some (.symlink t)) := by
  obtain ⟨st2, perms, st3, hpe, hfin, hst'⟩ := installArtifact_ok_parts h
  obtain ⟨-, hperm, -, -, hall⟩ := processEntries_ok hpe
  intro e he t hk
  obtain ⟨rp, hrp, o, ho, hlook⟩ := hall e he
  have hnotperm : ∀ pm ∈ perms, pm.1 ≠ rp := by
    intro pm hpm he2
    rw [hperm, List.nil_append] at hpm
    rcases List.mem_filterMap.mp hpm with ⟨e', he', hpo⟩
    have hrm := permOf_eq_some hpo
    rw [he2] at hrm
    obtain ⟨rp', hrp', o', ho', hlook'⟩ := hall e' he'
    rw [hrm] at hrp'
    have hrpeq : rp' = rp := Option.some.inj hrp'.symm
    rw [hrpeq, hlook] at hlook'
    have hoo : o = o' := Option.some.inj hlook'
    rw [hk] at ho
    simp only [expectedObj] at ho
    obtain ⟨tgt, -, htgt2⟩ := Option.map_eq_some'.mp ho
    rcases permOf_kind hpo with ⟨m', hk'⟩ | ⟨m', c', hk', hc'⟩
    · rw [hk'] at ho'
      simp only [expectedObj] at ho'
      have : o' = .dir dm := (Option.some.inj ho').symm
      rw [← hoo, ← htgt2] at this
      cases this
    · rw [hk'] at ho'
      simp only [expectedObj] at ho'
      rw [hc'] at ho'
      rw [if_neg (by simp)] at ho'
      obtain ⟨rw0, -, hov⟩ := Option.map_eq_some'.mp ho'
      rw [← hoo, ← htgt2] at hov
      cases hov
  have hframe := finalizePerms_frame hfin rp hnotperm
  have hne : markerPath rel ≠ rp := by
    intro heq
    exact hnm e he (heq ▸ hrp)
  have hfinal : lookupFS st'.fs rp = some o := by
    rw [hst']
    show lookupFS ((markerPath rel, RObj.file dm []) :: st3.fs) rp = _
    rw [lookupFS_cons_ne hne, hframe]
    exact hlook
  rw [hk] at ho
  simp only [expectedObj] at ho
  refine ⟨rp, hrp, ?_, ?_⟩
  · intro r hteq
    subst hteq
    rw [if_pos (show (NIX_STORE ++ r).head? = some '/' from rfl),
      remap_path_store] at ho
    have : o = .symlink (DEFAULT_REMAP ++ r) := (Option.some.inj ho).symm
    rw [← this]
    exact hfinal
  · intro hrel
    rw [if_neg hrel] at ho
    have : o = .symlink t := (Option.some.inj ho).symm
    rw [← this]
    exact hfinal

theorem claim_C5_witness :
    ∃ rp,
      remap_path (NIX_STORE ++ "aaaa-x/l".data) = some rp ∧
      (∀ r, "../rel".data = NIX_STORE ++ r →
        lookupFS (installArtifact [] 420 "aaaa-x".data
          [⟨NIX_STORE ++ "aaaa-x".data, .dir 493⟩,
           ⟨NIX_STORE ++ "aaaa-x/l".data, .symlink "../rel".data⟩]
          ⟨[], false⟩).1.fs rp = some (.symlink (DEFAULT_REMAP ++ r))) ∧
      ("../rel".data.head? ≠ some '/' →
        lookupFS (installArtifact [] 420 "aaaa-x".data
          [⟨NIX_STORE ++ "aaaa-x".data, .dir 493⟩,
           ⟨NIX_STORE ++ "aaaa-x/l".data, .symlink "../rel".data⟩]
          ⟨[], false⟩).1.fs rp = some (.symlink "../rel".data)) :=
  @claim_C5 [] 420 "aaaa-x".data
    [⟨NIX_STORE ++ "aaaa-x".data, .dir 493⟩,
      ⟨NIX_STORE ++ "aaaa-x/l".data, .symlink "../rel".data⟩]
    ⟨[], false⟩
    ((installArtifact [] 420 "aaaa-x".data
      [⟨NIX_STORE ++ "aaaa-x".data, .dir 493⟩,
       ⟨NIX_STORE ++ "aaaa-x/l".data, .symlink "../rel".data⟩] ⟨[], false⟩).1)
    (by rfl) (by decide)
    ⟨NIX_STORE ++ "aaaa-x/l".data, .symlink "../rel".data⟩ (by decide)
    "../rel".data rfl

/-- C6 (amended): processing a Directory entry fails with the mkdir
error exactly when an object already exists at the remapped path — an
already-existing object does make directory creation fail (the code
propagates every error of the remote create, and only the top-level
artifact path is cleared beforehand by the conflict removal). -/
theorem claim_C6_amended {rpaths : List (List Char)} {dm : Nat} {st : RState}
    {perms : List (List Char × Nat)} {path erel : List Char} {mode : Nat}
    (hstrip : stripLit NIX_STORE path = some erel) :
    (processEntry rpaths dm st perms ⟨path, .dir mode⟩).2.2 =
      some .mkdirFailed ↔
    (lookupFS st.fs (DEFAULT_REMAP ++ erel)).isSome = true := by
  unfold processEntry
  simp only []
  rw [hstrip]
  simp only []
  cases hl : lookupFS st.fs (DEFAULT_REMAP ++ erel) with
  | some o => simp
  | none => simp

/-- C6 counterexample: the claim as frozen says an already-existing
directory at the remapped path does not by itself make directory
creation an error; but with a remote object pre-existing at the nested
remapped path (and nothing at the top-level artifact path, so conflict
removal does not fire), the walk aborts with the mkdir error even
though the only failure cause is that the directory already exists. -/
theorem claim_C6_counterexample :
    (lookupFS [(DEFAULT_REMAP ++ "aaaa-x/sub".data, RObj.dir 448)]
      (DEFAULT_REMAP ++ "aaaa-x/sub".data)).isSome = true ∧
    installArtifact [] 448 "aaaa-x".data
      [⟨NIX_STORE ++ "aaaa-x".data, .dir 493⟩,
       ⟨NIX_STORE ++ "aaaa-x/sub".data, .dir 493⟩]
      ⟨[(DEFAULT_REMAP ++ "aaaa-x/sub".data, RObj.dir 448)], false⟩ =
      (⟨[(DEFAULT_REMAP ++ "aaaa-x".data, RObj.dir 448),
         (DEFAULT_REMAP ++ "aaaa-x/sub".data, RObj.dir 448)], false⟩,
        some .mkdirFailed) := by
  exact ⟨by decide, by decide⟩

theorem claim_C6_witness :
    ((processEntry [] 448
      ⟨[(DEFAULT_REMAP ++ "aaaa-x".data, RObj.dir 448)], false⟩ []
      ⟨NIX_STORE ++ "aaaa-x".data, .dir 493⟩).2.2 = some .mkdirFailed ↔
    (lookupFS [(DEFAULT_REMAP ++ "aaaa-x".data, RObj.dir 448)]
      (DEFAULT_REMAP ++ "aaaa-x".data)).isSome = true) :=
  claim_C6_amended (stripLit_append NIX_STORE "aaaa-x".data)

/-- C8: when a remote object already exists at the artifact's remapped
top-level path, the installation forcibly removes it recursively,
surfaces a warning, and then proceeds exactly as a from-scratch install
on the cleaned state: the cleaned state has nothing at the top-level
path nor anywhere below it. -/
theorem claim_C8 {rpaths : List (List Char)} {dm : Nat} {rel : List Char}
    {entries : List Entry} {st : RState}
    (hconf : (lookupFS st.fs (DEFAULT_REMAP ++ rel)).isSome = true) :
    installArtifact rpaths dm rel entries st =
      installArtifact rpaths dm rel entries
        ⟨rmrfFS st.fs (DEFAULT_REMAP ++ rel), true⟩ ∧
    lookupFS (rmrfFS st.fs (DEFAULT_REMAP ++ rel))
      (DEFAULT_REMAP ++ rel) = none ∧
    (∀ q, (DEFAULT_REMAP ++ rel) ++ ['/'] <+: q →
      lookupFS (rmrfFS st.fs (DEFAULT_REMAP ++ rel)) q = none) ∧
    (installArtifact rpaths dm rel entries st).1.warned = true := by
  have hclean : lookupFS (rmrfFS st.fs (DEFAULT_REMAP ++ rel))
      (DEFAULT_REMAP ++ rel) = none :=
    lookupFS_rmrf_removed (Or.inl rfl)
  have heq : installArtifact rpaths dm rel entries st =
      installArtifact rpaths dm rel entries
        ⟨rmrfFS st.fs (DEFAULT_REMAP ++ rel), true⟩ := by
    unfold installArtifact
    rw [remap_path_store]
    simp only []
    rw [if_pos hconf, if_neg (by rw [hclean]; simp)]
  refine ⟨heq, hclean, fun q hq => lookupFS_rmrf_removed (Or.inr hq), ?_⟩
  rw [heq]
  rcases hres : installArtifact rpaths dm rel entries
      ⟨rmrfFS st.fs (DEFAULT_REMAP ++ rel), true⟩ with ⟨stR, errR⟩
  show stR.warned = true
  cases errR with
  | none =>
    obtain ⟨st2, perms, st3, hpe, hfin, hst'⟩ := installArtifact_ok_parts hres
    rw [if_neg (by rw [hclean]; simp)] at hpe
    have h2 := (processEntries_any hpe).1
    have h3 := finalizePerms_warned hfin
    rw [hst']
    show st3.warned = true
    rw [h3, h2]
  | some err =>
    obtain ⟨st1, hst1, hcase⟩ := installArtifact_err_parts hres
    rw [if_neg (by rw [hclean]; simp)] at hst1
    rcases hcase with ⟨perms', hpe⟩ | ⟨st2, perms, hpe, hfin⟩
    · rw [hst1] at hpe
      exact (processEntries_any hpe).1
    · rw [hst1] at hpe
      have h2 := (processEntries_any hpe).1
      have h3 := finalizePerms_warned hfin
      rw [h3, h2]

theorem claim_C8_witness :
    (installArtifact [] 448 "aaaa-x".data
        [⟨NIX_STORE ++ "aaaa-x".data, .dir 493⟩]
        ⟨[(DEFAULT_REMAP ++ "aaaa-x".data, RObj.file 448 "junk".data)], false⟩ =
      installArtifact [] 448 "aaaa-x".data
        [⟨NIX_STORE ++ "aaaa-x".data, .dir 493⟩]
        ⟨rmrfFS [(DEFAULT_REMAP ++ "aaaa-x".data, RObj.file 448 "junk".data)]
          (DEFAULT_REMAP ++ "aaaa-x".data), true⟩) ∧
    lookupFS (rmrfFS
      [(DEFAULT_REMAP ++ "aaaa-x".data, RObj.file 448 "junk".data)]
      (DEFAULT_REMAP ++ "aaaa-x".data)) (DEFAULT_REMAP ++ "aaaa-x".data)
      = none ∧
    (∀ q, (DEFAULT_REMAP ++ "aaaa-x".data) ++ ['/'] <+: q →
      lookupFS (rmrfFS
        [(DEFAULT_REMAP ++ "aaaa-x".data, RObj.file 448 "junk".data)]
        (DEFAULT_REMAP ++ "aaaa-x".data)) q = none) ∧
    (installArtifact [] 448 "aaaa-x".data
      [⟨NIX_STORE ++ "aaaa-x".data, .dir 493⟩]
      ⟨[(DEFAULT_REMAP ++ "aaaa-x".data, RObj.file 448 "junk".data)],
        false⟩).1.warned = true :=
  claim_C8 (by decide)

/-- C9: a zero-length local regular file is created remotely and closed
with zero bytes written and no rewrite scan (the resulting state does
not depend on the matcher), the per-file permission-change step is
skipped (the created object keeps the transport's default mode), no
deferred permission is recorded, and processing moves on to the next
entry. -/
theorem claim_C9 {rpaths : List (List Char)} {dm : Nat} {st : RState}
    {perms : List (List Char × Nat)} {path erel : List Char} {mode : Nat}
    (rest : List Entry)
    (hstrip : stripLit NIX_STORE path = some erel)
    (hfresh : lookupFS st.fs (DEFAULT_REMAP ++ erel) = none) :
    processEntry rpaths dm st perms ⟨path, .file mode []⟩ =
      (⟨(DEFAULT_REMAP ++ erel, .file dm []) :: st.fs, st.warned⟩,
        perms, none) ∧
    processEntries rpaths dm st perms (⟨path, .file mode []⟩ :: rest) =
      processEntries rpaths dm
        ⟨(DEFAULT_REMAP ++ erel, .file dm []) :: st.fs, st.warned⟩
        perms rest := by
  have h1 : processEntry rpaths dm st perms ⟨path, .file mode []⟩ =
      (⟨(DEFAULT_REMAP ++ erel, .file dm []) :: st.fs, st.warned⟩,
        perms, none) := by
    unfold processEntry
    simp only []
    rw [hstrip]
    simp only []
    rw [hfresh]
    rfl
  refine ⟨h1, ?_⟩
  have hcons : processEntries rpaths dm st perms
      (⟨path, .file mode []⟩ :: rest) =
      match processEntry rpaths dm st perms ⟨path, .file mode []⟩ with
      | (st', p', none) => processEntries rpaths dm st' p' rest
      | (st', p', some e) => (st', p', some e) := rfl
  rw [hcons, h1]

theorem claim_C9_witness :
    processEntry ["junk".data] 420 ⟨[], false⟩ []
      ⟨NIX_STORE ++ "aaaa-x/f".data, .file 292 []⟩ =
      (⟨[(DEFAULT_REMAP ++ "aaaa-x/f".data, .file 420 [])], false⟩, [], none) ∧
    processEntries ["junk".data] 420 ⟨[], false⟩ []
      [⟨NIX_STORE ++ "aaaa-x/f".data, .file 292 []⟩] =
      processEntries ["junk".data] 420
        ⟨[(DEFAULT_REMAP ++ "aaaa-x/f".data, .file 420 [])], false⟩ [] [] :=
  claim_C9 [] (stripLit_append NIX_STORE "aaaa-x/f".data) rfl

/-- C10: when some entry of the walked tree is a symlink whose local
target is absolute but does not begin with the store root, the
artifact's installation fails (remapping the target returns an error),
the remote symlink for that entry is never created (nothing ends up at
its remapped path, which was initially vacant), and no marker is
written for the containing artifact. -/
theorem claim_C10 {rpaths : List (List Char)} {dm : Nat} {rel : List Char}
    {entries : List Entry} {st : RState} {erel t : List Char}
    (hmem : (⟨NIX_STORE ++ erel, .symlink t⟩ : Entry) ∈ entries)
    (habs : t.head? = some '/')
    (hnot : stripLit NIX_STORE t = none)
    (hnd : (entries.map Entry.path).Nodup)
    (hfresh : lookupFS st.fs (DEFAULT_REMAP ++ erel) = none)
    (hm0 : lookupFS st.fs (markerPath rel) = none)
    (hnm : ∀ e ∈ entries, remap_path e.path ≠ some (markerPath rel)) :
    (installArtifact rpaths dm rel entries st).2 ≠ none ∧
    lookupFS (installArtifact rpaths dm rel entries st).1.fs
      (markerPath rel) = none ∧
    lookupFS (installArtifact rpaths dm rel entries st).1.fs
      (DEFAULT_REMAP ++ erel) = none := by
  have hrmt : remap_path t = none := by
    unfold remap_path
    rw [hnot]
    rfl
  rcases hres : installArtifact rpaths dm rel entries st with ⟨stR, errR⟩
  cases errR with
  | none =>
    exfalso
    obtain ⟨st2, perms, st3, hpe, hfin, hst'⟩ := installArtifact_ok_parts hres
    obtain ⟨-, -, -, -, hall⟩ := processEntries_ok hpe
    obtain ⟨rp, -, o, ho, -⟩ := hall _ hmem
    simp only [expectedObj] at ho
    rw [if_pos habs, hrmt] at ho
    cases ho
  | some err =>
    refine ⟨by simp, ?_, ?_⟩
    · exact marker_none_on_err hres hm0 hnm
    · obtain ⟨st1, hst1, hcase⟩ := installArtifact_err_parts hres
      have hf1 : lookupFS st1.fs (DEFAULT_REMAP ++ erel) = none := by
        rw [hst1]
        split
        · exact lookupFS_rmrf_none hfresh
        · exact hfresh
      obtain ⟨l1, l2, hsplit⟩ := List.append_of_mem hmem
      have hno1 : ∀ e' ∈ l1, remap_path e'.path ≠
          some (DEFAULT_REMAP ++ erel) := by
        intro e' he' hcon
        have hpath : e'.path = NIX_STORE ++ erel := remap_path_inj hcon
        rw [hsplit, List.map_append, List.map_cons] at hnd
        have hnotin := (List.nodup_cons.mp (List.nodup_middle.mp hnd)).1
        have : (NIX_STORE ++ erel) ∈ List.map Entry.path l1 := by
          rw [← hpath]
          exact List.mem_map_of_mem Entry.path he'
        exact hnotin (List.mem_append_left _ this)
      -- the walk can only fail: reaching the bad symlink aborts the walk,
      -- and an earlier failure also aborts it
      have hwalk : ∀ {stw permsw errw},
          processEntries rpaths dm st1 [] entries = (stw, permsw, errw) →
          lookupFS stw.fs (DEFAULT_REMAP ++ erel) = none := by
        intro stw permsw errw hw
        rw [hsplit, processEntries_append] at hw
        rcases hl1 : processEntries rpaths dm st1 [] l1 with ⟨stA, permsA, errA⟩
        rw [hl1] at hw
        have hfA : lookupFS stA.fs (DEFAULT_REMAP ++ erel) = none := by
          rw [(processEntries_any hl1).2 (DEFAULT_REMAP ++ erel) hno1]
          exact hf1
        cases errA with
        | some errA' =>
          simp only [] at hw
          injection hw with hw1 hw2
          rw [← hw1]
          exact hfA
        | none =>
          simp only [] at hw
          have hstep : processEntry rpaths dm stA permsA
              ⟨NIX_STORE ++ erel, .symlink t⟩ =
              (stA, permsA, some .remapFailed) := by
            unfold processEntry
            simp only []
            rw [stripLit_append]
            simp only []
            rw [if_pos habs, hrmt]
          have hcons : processEntries rpaths dm stA permsA
              ((⟨NIX_STORE ++ erel, .symlink t⟩ : Entry) :: l2) =
              match processEntry rpaths dm stA permsA
                  ⟨NIX_STORE ++ erel, .symlink t⟩ with
              | (st', p', none) => processEntries rpaths dm st' p' l2
              | (st', p', some e) => (st', p', some e) := rfl
          rw [hcons, hstep] at hw
          simp only [] at hw
          injection hw with hw1 hw2
          rw [← hw1]
          exact hfA
      rcases hcase with ⟨perms', hpe⟩ | ⟨st2, perms, hpe, hfin⟩
      · exact hwalk hpe
      · exfalso
        obtain ⟨-, -, -, -, hall⟩ := processEntries_ok hpe
        obtain ⟨rp, -, o, ho, -⟩ := hall _ hmem
        simp only [expectedObj] at ho
        rw [if_pos habs, hrmt] at ho
        cases ho

theorem claim_C10_witness :
    (installArtifact [] 420 "aaaa-x".data
      [⟨NIX_STORE ++ "aaaa-x".data, .dir 493⟩,
       ⟨NIX_STORE ++ "aaaa-x/l".data, .symlink "/usr/bin/env".data⟩]
      ⟨[], false⟩).2 ≠ none ∧
    lookupFS (installArtifact [] 420 "aaaa-x".data
      [⟨NIX_STORE ++ "aaaa-x".data, .dir 493⟩,
       ⟨NIX_STORE ++ "aaaa-x/l".data, .symlink "/usr/bin/env".data⟩]
      ⟨[], false⟩).1.fs (markerPath "aaaa-x".data) = none ∧
    lookupFS (installArtifact [] 420 "aaaa-x".data
      [⟨NIX_STORE ++ "aaaa-x".data, .dir 493⟩,
       ⟨NIX_STORE ++ "aaaa-x/l".data, .symlink "/usr/bin/env".data⟩]
      ⟨[], false⟩).1.fs (DEFAULT_REMAP ++ "aaaa-x/l".data) = none :=
  @claim_C10 [] 420 "aaaa-x".data
    [⟨NIX_STORE ++ "aaaa-x".data, .dir 493⟩,
     ⟨NIX_STORE ++ "aaaa-x/l".data, .symlink "/usr/bin/env".data⟩]
    ⟨[], false⟩ "aaaa-x/l".data "/usr/bin/env".data
    (by decide) (by decide) (by decide) (by decide) rfl rfl (by decide)

end NixRemote
